import Mathlib

/-!
# xenv: argument classifier, environment merge and launch

A shallow embedding of `src/cmd/root.go` (`rootCmd.Run`).  Go strings are
embedded as `String`; an index-out-of-range panic is `none`; `os.Exit` is a
returned value.  Library calls that live outside the repository are
parameters of the definitions that use them.
-/

namespace Xenv

/-! ## Strings -/

/-- The Go expression `s[0]`; `none` is the run-time panic on the empty string. -/
def byte0 (s : String) : Option Char := s.data.head?

/-- The Go call `strings.ContainsRune(s, c)`. -/
def containsRune (s : String) (c : Char) : Bool := s.data.contains c

/-- The Go call `strings.HasSuffix(s, suffix)`. -/
def hasSuffix (s suffix : String) : Bool := suffix.data.isSuffixOf s.data

/-- The Go call `strings.HasPrefix(s, p)`. -/
def startsWith (s p : String) : Bool := p.data.isPrefixOf s.data

/-- The Go call `filepath.Base(path)` with `/` as the separator: trailing
separators are stripped, the text after the last separator is kept, the empty
path gives `.` and a path of separators only gives `/`. -/
def filepathBase (path : String) : String :=
  if path = "" then "."
  else
    let stripped := (path.data.reverse.dropWhile (fun c => c == '/')).reverse
    let last := (stripped.reverse.takeWhile (fun c => c != '/')).reverse
    if last = [] then "/" else String.mk last

/-! ## The classifier loop (root.go lines 66-144) -/

/-- The local variables of the classifier loop. -/
structure Scan where
  quiet : Bool
  commandArgs : List String
  cmdArgs : List String
  envVars : List String
  envFiles : List String
  inCommand : Bool
  inArgs : Bool
deriving DecidableEq, Repr

/-- The values of the locals at lines 66-74, before the loop. -/
def Scan.init : Scan :=
  { quiet := false, commandArgs := [], cmdArgs := [], envVars := [], envFiles := [],
    inCommand := false, inArgs := false }

/-- Lines 78-80: `if !inArgs && arg[0] != '-' { inArgs = true }`.  The `&&`
short-circuits, so `arg[0]` is read only while `inArgs` is false. -/
def enterArgs (st : Scan) (arg : String) : Option Scan :=
  if st.inArgs then some st
  else
    match byte0 arg with
    | none => none
    | some c => if c != '-' then some { st with inArgs := true } else some st

/-- Lines 88-101 (and again 131-143): an assignment, an env file, or the
command head. -/
def positional (base : String → String) (st : Scan) (arg : String) : Scan :=
  if containsRune arg '=' then { st with envVars := st.envVars ++ [arg] }
  else if hasSuffix (base arg) ".env" || startsWith (base arg) ".env." then
    { st with envFiles := st.envFiles ++ [arg] }
  else { st with inCommand := true, commandArgs := st.commandArgs ++ [arg] }

/-- The loop of lines 76-144 from index `i`, as a recursion on the tokens
`argv[i:]`.  `j < l` is "the rest is not empty" and `argv[j]` is its head. -/
def scanFrom (base : String → String) : Scan → List String → Option Scan
  | st, [] => some st
  | st, arg :: rest =>
    (enterArgs st arg).bind fun st =>
      if st.inCommand then
        scanFrom base { st with commandArgs := st.commandArgs ++ [arg] } rest
      else if st.inArgs then
        scanFrom base (positional base st arg) rest
      else
        (byte0 arg).bind fun c =>
          if c == '-' then
            if arg = "--quiet" ∨ arg = "-q" then
              scanFrom base { st with quiet := true } rest
            else if arg = "-c" ∨ arg = "--command-substitution" ∨ arg = "-i"
                ∨ arg = "--ignore-env" then
              scanFrom base { st with cmdArgs := st.cmdArgs ++ [arg] } rest
            else
              match rest with
              | [] => some { st with cmdArgs := st.cmdArgs ++ [arg] }
              | next :: rest2 =>
                (byte0 next).bind fun d =>
                  if d != '-' then
                    scanFrom base { st with cmdArgs := st.cmdArgs ++ [arg] ++ [next] } rest2
                  else
                    scanFrom base { st with cmdArgs := st.cmdArgs ++ [arg], inArgs := true }
                      (next :: rest2)
          else
            scanFrom base (positional base { st with inArgs := true } arg) rest

/-- The classifier: the loop run over the whole of `argv`. -/
def classify (base : String → String) (argv : List String) : Option Scan :=
  scanFrom base Scan.init argv

/-! ## Tagging of positions, used to state the partition property -/

/-- The bucket a token position ends in; `quietFlag` is a `-q`/`--quiet`
token, which line 105 records in `quiet` and appends nowhere. -/
inductive Tag where
  | option
  | assignment
  | envFile
  | command
  | quietFlag
deriving DecidableEq, Repr

/-- The tokens whose position carries tag `t`, in their original order. -/
def pick (t : Tag) : List String → List Tag → List String
  | a :: as, b :: bs => if b = t then a :: pick t as bs else pick t as bs
  | _, _ => []

/-- The bucket of a scan state that a tag names. -/
def bucketOf (t : Tag) (st : Scan) : List String :=
  match t with
  | .option => st.cmdArgs
  | .assignment => st.envVars
  | .envFile => st.envFiles
  | .command => st.commandArgs
  | .quietFlag => []

/-- Total number of tokens held by the four buckets. -/
def bucketTotal (st : Scan) : Nat :=
  st.cmdArgs.length + st.envVars.length + st.envFiles.length + st.commandArgs.length

/-- Whether a tag names one of the three positional buckets. -/
def Tag.isPositional : Tag → Bool
  | .assignment => true
  | .envFile => true
  | .command => true
  | .option => false
  | .quietFlag => false

/-- Whether the scan has left the option region. -/
def Scan.pastOptions (st : Scan) : Prop := st.inArgs = true ∨ st.inCommand = true

/-- The state `st` extends `st0` by the tokens of `ts`, each in the bucket its
tag names; a position tagged `quietFlag` holds a quiet flag and no position
tagged `option` does; `quiet` is set when it was set or a position is tagged
`quietFlag`; and the positions of the positional buckets all come after those
tagged `option` or `quietFlag`. -/
def Tagged (st0 st : Scan) (ts : List String) (tags : List Tag) : Prop :=
  tags.length = ts.length ∧
  (∀ t, bucketOf t st = bucketOf t st0 ++ (if t = Tag.quietFlag then [] else pick t ts tags)) ∧
  (∀ x ∈ pick Tag.quietFlag ts tags, x = "-q" ∨ x = "--quiet") ∧
  (∀ x ∈ pick Tag.option ts tags, x ≠ "-q" ∧ x ≠ "--quiet") ∧
  (st.quiet = true ↔ st0.quiet = true ∨ Tag.quietFlag ∈ tags) ∧
  (st0.pastOptions → ∀ t ∈ tags, t.isPositional = true) ∧
  (∃ k, (∀ t ∈ tags.take k, t.isPositional = false) ∧
    ∀ t ∈ tags.drop k, t.isPositional = true)

/-- One token `arg` handled with tag `t`, taking the state `st0` to `st1`. -/
def Step (st0 st1 : Scan) (arg : String) (t : Tag) : Prop :=
  (∀ u, bucketOf u st1 = bucketOf u st0 ++
    (if u = Tag.quietFlag then [] else if t = u then [arg] else [])) ∧
  (t = Tag.quietFlag → arg = "-q" ∨ arg = "--quiet") ∧
  (t = Tag.option → arg ≠ "-q" ∧ arg ≠ "--quiet") ∧
  (st1.quiet = true ↔ st0.quiet = true ∨ t = Tag.quietFlag) ∧
  (t.isPositional = true → st1.pastOptions) ∧
  (st0.pastOptions → t.isPositional = true ∧ st1.pastOptions)

/-- What lines 78-80 keep of the state: the buckets, `quiet`, `inCommand`,
and a set `inArgs`. -/
def Entered (st0 st1 : Scan) : Prop :=
  (∀ u, bucketOf u st1 = bucketOf u st0) ∧ st1.quiet = st0.quiet ∧
  st1.inCommand = st0.inCommand ∧ (st0.inArgs = true → st1.inArgs = true)

/-! ## Split-string rewrite (root.go lines 53-55) -/

/-- Lines 53-55 on a non-empty `argv` (line 46 has left on the empty one).  Go
parses the condition as `(len(argv) == 2 && argv[0] == "--split-string") ||
argv[0] == "-S"`; `none` is the panic of `argv[1]` out of range.  `split` is
`cmdargs.Split(..).ToArray()`. -/
def splitString (split : String → List String) (argv : List String) : Option (List String) :=
  (argv[0]?).bind fun a0 =>
    if (argv.length == 2 && a0 == "--split-string") || a0 == "-S" then
      (argv[1]?).bind fun a1 => some (split a1)
    else some argv

/-! ## Outcomes, variables, documents -/

/-- How a stretch of `Run` ends: a run-time panic, `os.Exit(code)` after the
lines `out` were written with `cmd.Println` and the lines `err` with
`cmd.PrintErrf` or `println`, or a value with which the function goes on. -/
inductive Result (α : Type) where
  | panic : Result α
  | exit (code : Int) (out err : List String) : Result α
  | ok (a : α) : Result α
deriving DecidableEq, Repr

/-- Sequencing: a panic or an exit ends the run. -/
def Result.bind {α β : Type} (r : Result α) (f : α → Result β) : Result β :=
  match r with
  | .panic => .panic
  | .exit c o e => .exit c o e
  | .ok a => f a

/-- The pattern `if !quiet { cmd.PrintErrf(msg) }; os.Exit(1)`. -/
def failWith {α : Type} (quiet : Bool) (msg : String) : Result α :=
  .exit 1 [] (if !quiet then [msg] else [])

/-- A Go `map[string]string`, as an association list with distinct keys. -/
abbrev Vars := List (String × String)

/-- The Go read `v, ok := vars[k]`. -/
def mapGet : Vars → String → Option String
  | [], _ => none
  | (a, b) :: rest, k => if a = k then some b else mapGet rest k

/-- The Go call `delete(vars, k)`; a key that is absent is left absent. -/
def mapDelete : Vars → String → Vars
  | [], _ => []
  | (a, b) :: rest, k => if a = k then mapDelete rest k else (a, b) :: mapDelete rest k

/-- The Go write `vars[k] = v`. -/
def mapSet (m : Vars) (k v : String) : Vars := (k, v) :: mapDelete m k

/-- The `Type` field of a `dotenv` node: `VARIABLE_TOKEN` or any other kind. -/
inductive TokenType where
  | variableToken
  | otherToken
deriving DecidableEq, Repr

/-- A node of `docs.ToArray()`: `Type`, the pointer `Key` and `Value`. -/
structure Node where
  type : TokenType
  key : Option String
  value : String
deriving DecidableEq, Repr

/-- A `dotenv` document, as the sequence `ToArray()` returns. -/
abbrev Document := List Node

/-- Whether a node is a variable entry named `name`. -/
def Node.isVar (name : String) (n : Node) : Bool :=
  n.type == TokenType.variableToken && n.key == some name

/-- Modelled from the spec: the `dotenv` package is not in the source.  One
step of "overlays entries by name while preserving first-seen ordering": a name
already in the document keeps its place and takes the new value, a new name is
added at the end. -/
def overlay (d : Document) (name value : String) : Document :=
  if d.any (Node.isVar name) then
    d.map fun n => if Node.isVar name n then { n with value := value } else n
  else d ++ [{ type := TokenType.variableToken, key := some name, value := value }]

/-- Modelled from the spec: `docs.Merge(nextDoc)` of the `dotenv` package,
which is not in the source: "merging two documents overlays entries by name
while preserving first-seen ordering for iteration"; an entry without a name
is added at the end. -/
def merge (d : Document) (next : Document) : Document :=
  next.foldl
    (fun acc n =>
      match n.type, n.key with
      | TokenType.variableToken, some k => overlay acc k n.value
      | _, _ => acc ++ [n])
    d

/-- Modelled from the spec: `docs.AddVariable(name, value)` of the `dotenv`
package, which is not in the source; inline assignments are merged "in the
order given", each as one more variable entry at the end of the document. -/
def addVariable (d : Document) (name value : String) : Document :=
  d ++ [{ type := TokenType.variableToken, key := some name, value := value }]

/-- The later definition when there is one, else the earlier one. -/
def laterOr (later earlier : Option String) : Option String :=
  match later with
  | some v => some v
  | none => earlier

/-- The value of the last variable entry named `name`, if there is one. -/
def lastValue : Document → String → Option String
  | [], _ => none
  | n :: rest, name => laterOr (lastValue rest name) (if Node.isVar name n then some n.value else none)

/-- The value that the last document defining `name` gives it, if any does. -/
def docsValue : List Document → String → Option String
  | [], _ => none
  | d :: rest, name => laterOr (docsValue rest name) (lastValue d name)

/-! ## The host: what `Run` calls outside the repository -/

deriving instance DecidableEq for Except

/-- The values read back from `envFlags` at lines 154-157 and 160.  The reads
of `shim` and `use-shell` at lines 158-159 name flags that `envFlags` does not
declare (lines 57-65), so they give `false` and the empty string. -/
structure Flags where
  chdir : String
  envVarsValue : List String
  envFilesValue : List String
  unsetVars : List String
  commandSubstitution : Bool
deriving DecidableEq, Repr

/-- The fields of `env.ExpandOptions` set at lines 243-260, apart from the
closures `Get` and `Set`, which read and write the mapping `vars`. -/
structure ExpandOptions where
  commandSubstitution : Bool
  useShell : String
  enableShellExpansion : Bool
deriving DecidableEq, Repr

/-- The library and operating-system calls of `Run`. -/
structure Host where
  /-- The call `env.All()`. -/
  environ : Vars
  /-- The call `cmd.Flags().GetBool("ignore-env")`. -/
  ignoreEnv : Bool
  /-- The call `cmdargs.Split(s).ToArray()`. -/
  split : String → List String
  /-- The call `filepath.Base`. -/
  base : String → String
  /-- The call `envFlags.Parse(cmdArgs)` followed by the getters. -/
  parseFlags : List String → Except String Flags
  /-- The call `filepath.IsAbs`. -/
  isAbs : String → Bool
  /-- The call `os.UserHomeDir()`. -/
  userHomeDir : Except String String
  /-- The call `filepath.Join` on two elements. -/
  join : String → String → String
  /-- The call `filepath.Abs`. -/
  abs : String → Except String String
  /-- The test `os.IsNotExist(err)` on the error of `os.Stat(path)`. -/
  notExist : String → Bool
  /-- The call `os.ReadFile`. -/
  readFile : String → Except String String
  /-- The call `dotenv.Parse`. -/
  parse : String → Except String Document
  /-- The call `env.ExpandWithOptions(value, opts)`: the expanded text and the
  mapping as its `Set` calls leave it, or an error. -/
  expand : ExpandOptions → String → Vars → Except String (String × Vars)
  /-- The calls `exec.New(exe, argz...)`, `WithEnvMap(vars)`, `Dir = dir` and
  `Run()`: the exit code of the child, or the error of a failed start. -/
  spawn : String → List String → Vars → String → Except String Int

/-! ## Environment resolution (root.go lines 146-291) -/

/-- The function `resolvePath` (lines 386-404); `none` is the panic of
`relativePath[0]` on the empty string or of `relativePath[1]` on `~`. -/
def resolvePath (h : Host) (relativePath : String) : Option (Except String String) :=
  if h.isAbs relativePath then some (.ok relativePath)
  else
    (byte0 relativePath).bind fun c0 =>
      (if c0 == '~' then (relativePath.data[1]?).map fun c1 => c1 == '/' || c1 == '\\'
       else some false).bind fun tilde =>
        let joined : Except String String :=
          if tilde then
            match h.userHomeDir with
            | .error e => .error e
            | .ok homeDir => .ok (h.join homeDir (String.mk (relativePath.data.drop 2)))
          else .ok relativePath
        match joined with
        | .error e => some (.error e)
        | .ok path => if h.isAbs path then some (.ok path) else some (h.abs path)

/-- Lines 172-201: one env file resolved, checked, read and parsed. -/
def loadEnvFile (h : Host) (quiet : Bool) (envFile : String) : Result Document :=
  match resolvePath h envFile with
  | none => .panic
  | some (.error e) =>
    failWith quiet ("Failed to resolve path for env file " ++ envFile ++ ": " ++ e ++ "\n")
  | some (.ok absPath) =>
    if h.notExist absPath then failWith quiet ("Env file " ++ absPath ++ " does not exist\n")
    else
      match h.readFile absPath with
      | .error e => failWith quiet ("Failed to read env file " ++ absPath ++ ": " ++ e ++ "\n")
      | .ok content =>
        match h.parse content with
        | .error e =>
          failWith quiet ("Failed to parse env file " ++ absPath ++ ": " ++ e ++ "\n")
        | .ok nextDoc => .ok nextDoc

/-- The loop of lines 171-204: each file is loaded and merged into `docs`. -/
def mergeFiles (h : Host) (quiet : Bool) : Document → List String → Result Document
  | docs, [] => .ok docs
  | docs, envFile :: rest =>
    (loadEnvFile h quiet envFile).bind fun nextDoc => mergeFiles h quiet (merge docs nextDoc) rest

/-- Lines 207-216: `strings.Index(envVar, "=")` and the slices `envVar[:index]`
and `envVar[index+1:]`; `none` when the index is -1. -/
def cutAtEquals (envVar : String) : Option (String × String) :=
  if envVar.data.contains '=' then
    some (String.mk (envVar.data.takeWhile fun c => c != '='),
          String.mk ((envVar.data.dropWhile fun c => c != '=').drop 1))
  else none

/-- Lines 207-222: the name and value of one inline assignment, or the exit
on a missing `=`, an empty name or an empty value. -/
def inlineEntry (quiet : Bool) (envVar : String) : Result (String × String) :=
  match cutAtEquals envVar with
  | none =>
    failWith quiet
      ("Invalid environment variable format: " ++ envVar ++ ". Expected NAME=VALUE\n")
  | some (name, value) =>
    if name == "" || value == "" then
      failWith quiet
        ("Invalid environment variable format: " ++ envVar ++ ". Expected NAME=VALUE\n")
    else .ok (name, value)

/-- The loop of lines 206-225: each inline assignment is added to `docs`. -/
def addInline (quiet : Bool) : Document → List String → Result Document
  | docs, [] => .ok docs
  | docs, envVar :: rest =>
    (inlineEntry quiet envVar).bind fun nv => addInline quiet (addVariable docs nv.1 nv.2) rest

/-- The value of the last inline assignment named `name`, if there is one. -/
def inlineValue : List String → String → Option String
  | [], _ => none
  | envVar :: rest, name =>
    laterOr (inlineValue rest name)
      (match cutAtEquals envVar with
       | some (n, v) => if n = name then some v else none
       | none => none)

/-- The documents of the given env files, loaded in order. -/
def loadAll (h : Host) (quiet : Bool) : List String → Result (List Document)
  | [] => .ok []
  | envFile :: rest =>
    (loadEnvFile h quiet envFile).bind fun d =>
      (loadAll h quiet rest).bind fun ds => .ok (d :: ds)

/-- No expansion of the value of a variable entry of `docs` that has another
name changes what `name` is bound to. -/
def LeavesAlone (h : Host) (name : String) (docs : Document) : Prop :=
  ∀ n ∈ docs, n.type = TokenType.variableToken → n.key ≠ some name →
    ∀ opts m s1 m1, h.expand opts n.value m = .ok (s1, m1) → mapGet m1 name = mapGet m name

/-- The expansion engine returns a text without `$` as it is. -/
def PassesPlain (h : Host) : Prop :=
  ∀ opts s m s1 m1, '$' ∉ s.data → h.expand opts s m = .ok (s1, m1) → s1 = s

/-- Lines 163-225: flag-supplied files and assignments are appended after the
positional ones, the files are merged and the assignments added. -/
def buildDocument (h : Host) (quiet : Bool) (fl : Flags) (envFiles envVars : List String) :
    Result Document :=
  (mergeFiles h quiet [] (envFiles ++ fl.envFilesValue)).bind fun docs =>
    addInline quiet docs (envVars ++ fl.envVarsValue)

/-- Lines 227-241: the mapping starts empty; unless the process environment is
ignored it is `env.All()` with every unset name deleted.  `shim` is `false`
(see `Flags`), so `shimEnv` is not called. -/
def seedVars (h : Host) (fl : Flags) : Vars :=
  if !h.ignoreEnv then fl.unsetVars.foldl mapDelete h.environ else []

/-- Lines 243-260: the expansion options; `useShell` is the empty string (see
`Flags`), so the branch of line 257 is not taken. -/
def expandOptions (fl : Flags) : ExpandOptions :=
  { commandSubstitution := fl.commandSubstitution, useShell := "", enableShellExpansion := false }

/-- Lines 264-289: one variable node is checked, expanded and assigned. -/
def assignNode (h : Host) (quiet : Bool) (opts : ExpandOptions) (node : Node) (vars : Vars) :
    Result Vars :=
  match node.key with
  | none => failWith quiet "Invalid environment variable name in .env file: \n"
  | some name =>
    if name == "" then
      failWith quiet ("Invalid environment variable name in .env file: " ++ name ++ "\n")
    else
      match h.expand opts node.value vars with
      | .error e =>
        failWith quiet ("Failed to expand environment variable " ++ name ++ ": " ++ e ++ "\n")
      | .ok (value, vars1) => .ok (mapSet vars1 name value)

/-- The loop of lines 262-291 over `docs.ToArray()`. -/
def assignLoop (h : Host) (quiet : Bool) (opts : ExpandOptions) : List Node → Vars → Result Vars
  | [], vars => .ok vars
  | node :: rest, vars =>
    if node.type = TokenType.variableToken then
      (assignNode h quiet opts node vars).bind fun vars1 => assignLoop h quiet opts rest vars1
    else assignLoop h quiet opts rest vars

/-- Lines 163-291: the final mapping from the classifier's `envFiles` and
`envVars` and the parsed flags. -/
def finalVars (h : Host) (quiet : Bool) (fl : Flags) (envFiles envVars : List String) :
    Result Vars :=
  (buildDocument h quiet fl envFiles envVars).bind fun docs =>
    assignLoop h quiet (expandOptions fl) docs (seedVars h fl)

/-! ## Launch (root.go lines 293-331) and the whole of `Run` -/

/-- Lines 293-331: the mapping is printed when there is no command; else the
working directory is resolved, the command is run and its exit code returned,
or 1 when it could not be started. -/
def launch (h : Host) (quiet : Bool) (chdir : String) (commandArgs : List String) (vars : Vars) :
    Result Unit :=
  match commandArgs with
  | [] => .exit 0 (if !quiet then vars.map fun kv => kv.1 ++ "=" ++ kv.2 ++ "\n" else []) []
  | exe :: argz =>
    let dir : Result String :=
      if chdir != "" then
        match resolvePath h chdir with
        | none => .panic
        | some (.error e) =>
          failWith quiet ("Failed to resolve path for chdir " ++ chdir ++ ": " ++ e ++ "\n")
        | some (.ok absPath) => .ok absPath
      else .ok ""
    dir.bind fun d =>
      match h.spawn exe argz vars d with
      | .error e =>
        .exit 1 [] (if quiet then ["Command execution failed: " ++ e ++ "\n"] else [])
      | .ok code => .exit code [] []

/-- What lines 44-291 of `Run` leave for the launch. -/
structure Resolved where
  quiet : Bool
  chdir : String
  commandArgs : List String
  vars : Vars
deriving DecidableEq, Repr

/-- Lines 44-291 of `Run` on `argv = os.Args[1:]`: the early exit on an empty
`argv` (the builtin `println` writes to the error stream), the split-string
rewrite, the classifier, the flag parse and the final mapping. -/
def resolve (h : Host) (argv : List String) : Result Resolved :=
  if argv.length == 0 then
    .exit 0 [] (h.environ.map fun kv => kv.1 ++ "=" ++ kv.2 ++ "\n")
  else
    match splitString h.split argv with
    | none => .panic
    | some argv =>
      match classify h.base argv with
      | none => .panic
      | some sc =>
        match h.parseFlags sc.cmdArgs with
        | .error e => failWith sc.quiet ("Failed to parse flags: " ++ e ++ "\n")
        | .ok fl =>
          (finalVars h sc.quiet fl sc.envFiles sc.envVars).bind fun vars =>
            .ok { quiet := sc.quiet, chdir := fl.chdir, commandArgs := sc.commandArgs,
                  vars := vars }

/-- The function `Run` (lines 42-334) on `argv = os.Args[1:]`. -/
def run (h : Host) (argv : List String) : Result Unit :=
  (resolve h argv).bind fun r => launch h r.quiet r.chdir r.commandArgs r.vars

/-! ## A concrete host, to run the code on examples -/

/-- How a declared flag takes its value. -/
inductive FlagKind where
  | string
  | stringArray
  | bool
deriving DecidableEq, Repr

/-- The flags declared on `envFlags` at lines 58-65: name, shorthand, kind. -/
def envFlagTable : List (String × Char × FlagKind) :=
  [("split-string", 'S', FlagKind.string), ("unset", 'u', FlagKind.stringArray),
   ("chdir", 'C', FlagKind.string), ("ignore-env", 'i', FlagKind.bool),
   ("env", 'e', FlagKind.stringArray), ("env-file", 'E', FlagKind.stringArray),
   ("command-substitution", 'c', FlagKind.bool), ("quiet", 'q', FlagKind.bool)]

/-- The flag values before any argument is parsed. -/
def Flags.empty : Flags :=
  { chdir := "", envVarsValue := [], envFilesValue := [], unsetVars := [],
    commandSubstitution := false }

/-- The Go call `strconv.ParseBool`. -/
def parseBool (v : String) : Option Bool :=
  if v ∈ ["1", "t", "T", "TRUE", "true", "True"] then some true
  else if v ∈ ["0", "f", "F", "FALSE", "false", "False"] then some false
  else none

/-- One flag set to one value, as `pflag` does it: a string flag is
overwritten, a string-array flag grows, a boolean flag parses its value.  Only
the flags that `Run` reads back are stored. -/
def setFlag (fl : Flags) (name : String) (kind : FlagKind) (value : String) :
    Except String Flags :=
  match kind with
  | FlagKind.bool =>
    match parseBool value with
    | none => .error ("invalid argument \"" ++ value ++ "\" for \"--" ++ name ++ "\" flag")
    | some b => if name = "command-substitution" then .ok { fl with commandSubstitution := b }
                else .ok fl
  | FlagKind.string => if name = "chdir" then .ok { fl with chdir := value } else .ok fl
  | FlagKind.stringArray =>
    if name = "unset" then .ok { fl with unsetVars := fl.unsetVars ++ [value] }
    else if name = "env" then .ok { fl with envVarsValue := fl.envVarsValue ++ [value] }
    else if name = "env-file" then .ok { fl with envFilesValue := fl.envFilesValue ++ [value] }
    else .ok fl

/-- The long form `--name`, `--name=value` or `--name value` of `pflag`; the
boolean tells whether the next argument was taken as the value. -/
def pflagLong (fl : Flags) (body : List Char) (next : Option String) :
    Except String (Flags × Bool) :=
  if body.head? = some '-' ∨ body.head? = some '=' then
    .error ("bad flag syntax: --" ++ String.mk body)
  else
    let name := String.mk (body.takeWhile fun c => c != '=')
    match envFlagTable.find? fun e => e.1 == name with
    | none => .error ("unknown flag: --" ++ name)
    | some (_, _, kind) =>
      if body.contains '=' then
        (setFlag fl name kind (String.mk ((body.dropWhile fun c => c != '=').drop 1))).map
          fun fl1 => (fl1, false)
      else if kind = FlagKind.bool then (setFlag fl name kind "true").map fun fl1 => (fl1, false)
      else
        match next with
        | some v => (setFlag fl name kind v).map fun fl1 => (fl1, true)
        | none => .error ("flag needs an argument: --" ++ name)

/-- The short form `-x`, `-xyz`, `-x=value`, `-xvalue` or `-x value` of
`pflag`; the boolean tells whether the next argument was taken as the value. -/
def pflagShort (whole : String) (next : Option String) :
    Flags → List Char → Except String (Flags × Bool)
  | fl, [] => .ok (fl, false)
  | fl, c :: rest =>
    match envFlagTable.find? fun e => e.2.1 == c with
    | none =>
      .error ("unknown shorthand flag: " ++ String.mk [c] ++ " in " ++ whole)
    | some (name, _, kind) =>
      if 2 ≤ rest.length ∧ rest.head? = some '=' then
        (setFlag fl name kind (String.mk (rest.drop 1))).map fun fl1 => (fl1, false)
      else if kind = FlagKind.bool then
        match setFlag fl name kind "true" with
        | .error e => .error e
        | .ok fl1 => pflagShort whole next fl1 rest
      else if rest ≠ [] then
        (setFlag fl name kind (String.mk rest)).map fun fl1 => (fl1, false)
      else
        match next with
        | some v => (setFlag fl name kind v).map fun fl1 => (fl1, true)
        | none => .error ("flag needs an argument: " ++ String.mk [c] ++ " in " ++ whole)

/-- The argument loop of `pflag.FlagSet.Parse` on the flags of `envFlagTable`:
arguments that are not flags are set aside, `--` ends the flags. -/
def pflagArgs : Flags → List String → Except String Flags
  | fl, [] => .ok fl
  | fl, s :: args =>
    if s.data.head? ≠ some '-' ∨ s.data.length = 1 then pflagArgs fl args
    else if s = "--" then .ok fl
    else
      match (if s.data[1]? = some '-' then pflagLong fl (s.data.drop 2) args.head?
             else pflagShort s args.head? fl (s.data.drop 1)) with
      | .error e => .error e
      | .ok (fl1, taken) =>
        match args with
        | [] => .ok fl1
        | a :: args1 => if taken then pflagArgs fl1 args1 else pflagArgs fl1 (a :: args1)

/-- The call `envFlags.Parse(cmdArgs)` and the getters of lines 154-160. -/
def pflagParse (cmdArgs : List String) : Except String Flags := pflagArgs Flags.empty cmdArgs

/-- An expansion engine that returns every text as it is. -/
def idEngine : ExpandOptions → String → Vars → Except String (String × Vars) :=
  fun _ s m => .ok (s, m)

/-- Whether a character may stand in a variable name. -/
def isNameChar (c : Char) : Bool := c.isAlphanum || c == '_'

/-- The text that replaces `$` followed by the name `nm`: the value of the
name, the empty string when unset; a `$` with no name after it stays. -/
def flushName (m : Vars) (nm : List Char) : List Char :=
  if nm = [] then ['$'] else ((mapGet m (String.mk nm)).getD "").data

/-- A scan that replaces each `$NAME` by the value of `NAME`; `pending` is
the name read so far after a `$`. -/
def dollarScan (m : Vars) : Option (List Char) → List Char → List Char
  | none, [] => []
  | some nm, [] => flushName m nm
  | none, c :: cs => if c = '$' then dollarScan m (some []) cs else c :: dollarScan m none cs
  | some nm, c :: cs =>
    if isNameChar c then dollarScan m (some (nm ++ [c])) cs
    else flushName m nm ++
      (if c = '$' then dollarScan m (some []) cs else c :: dollarScan m none cs)

/-- Modelled from the spec: the expansion engine is not in the source; this is
its form `$NAME`, "replaced by `ctx.get(NAME)`", with no call of `set`. -/
def dollarEngine : ExpandOptions → String → Vars → Except String (String × Vars) :=
  fun _ s m => .ok (String.mk (dollarScan m none s.data), m)

/-- A host whose files are the given table from absolute path to parsed
document; relative paths resolve under `/work`. -/
def tableHost (environ : Vars) (files : List (String × Document))
    (engine : ExpandOptions → String → Vars → Except String (String × Vars)) : Host :=
  { environ := environ
    ignoreEnv := false
    split := fun s => [s]
    base := filepathBase
    parseFlags := pflagParse
    isAbs := fun p => startsWith p "/"
    userHomeDir := .ok "/home/user"
    join := fun a b => a ++ "/" ++ b
    abs := fun p => .ok ("/work/" ++ p)
    notExist := fun p => (files.lookup p).isNone
    readFile := fun p => .ok p
    parse := fun content =>
      match files.lookup content with
      | some d => .ok d
      | none => .error "no such document"
    expand := engine
    spawn := fun exe _ _ _ => if exe = "missing" then .error "executable file not found" else .ok 0 }

/-- A variable entry of a document. -/
def var (name value : String) : Node :=
  { type := TokenType.variableToken, key := some name, value := value }

/-- The variable entries that the inline assignments add to the document, in
order; a token without `=` adds none. -/
def inlineNodes : List String → List Node
  | [] => []
  | envVar :: rest =>
    match cutAtEquals envVar with
    | some (n, v) => var n v :: inlineNodes rest
    | none => inlineNodes rest

/-- The name and the default of a text of the form `${NAME:=default}`. -/
def assignDefaultForm (s : List Char) : Option (String × String) :=
  match s with
  | '$' :: '\x7b' :: rest =>
    match rest.dropWhile isNameChar with
    | ':' :: '=' :: tail =>
      if tail.getLast? = some '\x7d' then
        some (String.mk (rest.takeWhile isNameChar), String.mk tail.dropLast)
      else none
    | _ => none
  | _ => none

/-- Modelled from the spec: the expansion engine is not in the source; this is
its form `${NAME:=default}` as the whole text, "if NAME is unset/empty, the
expansion result is `default` AND `ctx.set(NAME, default)` is invoked", with
the default taken as it is; any other text goes to the form `$NAME`. -/
def assignDefaultEngine : ExpandOptions → String → Vars → Except String (String × Vars) :=
  fun opts s m =>
    match assignDefaultForm s.data with
    | some (name, dflt) =>
      if (mapGet m name).getD "" = "" then .ok (dflt, mapSet m name dflt)
      else .ok ((mapGet m name).getD "", m)
    | none => dollarEngine opts s m

/-- The tag of the bucket that `positional` appends to. -/
def positionalTag (base : String → String) (arg : String) : Tag :=
  if containsRune arg '=' then Tag.assignment
  else if hasSuffix (base arg) ".env" || startsWith (base arg) ".env." then Tag.envFile
  else Tag.command

/-- Invariant of the loop: the command bucket is non-empty only in the command
region, and the command region lies inside the positional region. -/
def Scan.Inv (st : Scan) : Prop :=
  (st.commandArgs ≠ [] → st.inCommand = true) ∧ (st.inCommand = true → st.inArgs = true)

/-! ## Lemmas on the classifier -/

theorem byte0_of_ne {s : String} (h : s ≠ "") : ∃ c, byte0 s = some c := by
  rcases s with ⟨l⟩
  cases l with
  | nil => exact absurd rfl h
  | cons c cs => exact ⟨c, rfl⟩

theorem Tagged.nil (st : Scan) : Tagged st st [] [] := by
  refine ⟨rfl, ?_, ?_, ?_, ?_, ?_, ⟨0, ?_, ?_⟩⟩
  · intro t; cases t <;> simp [pick]
  · intro x hx; simp [pick] at hx
  · intro x hx; simp [pick] at hx
  · simp
  · intro _ t ht; simp at ht
  · intro t ht; simp at ht
  · intro t ht; simp at ht

theorem Tagged.cons {st0 st1 st : Scan} {ts : List String} {tags : List Tag}
    (arg : String) (t : Tag) (hstep : Step st0 st1 arg t)
    (h : Tagged st1 st ts tags) : Tagged st0 st (arg :: ts) (t :: tags) := by
  obtain ⟨h1, hq, hopt, hquiet1, hpos1, hpast⟩ := hstep
  obtain ⟨hl, hb, hquiet, hoption, hflag, hall, k, hk1, hk2⟩ := h
  refine ⟨by simp [hl], ?_, ?_, ?_, ?_, ?_, ?_⟩
  · intro u
    rw [hb u, h1 u]
    by_cases hu : u = Tag.quietFlag
    · simp [hu]
    · by_cases htu : t = u
      · simp [hu, htu, pick]
      · simp [hu, htu, pick]
  · intro x hx
    by_cases htq : t = Tag.quietFlag
    · subst htq
      simp only [pick, if_true, List.mem_cons] at hx
      rcases hx with hx | hx
      · subst hx; exact hq rfl
      · exact hquiet x hx
    · simp only [pick, if_neg htq] at hx
      exact hquiet x hx
  · intro x hx
    by_cases hto : t = Tag.option
    · subst hto
      simp only [pick, if_true, List.mem_cons] at hx
      rcases hx with hx | hx
      · subst hx; exact hopt rfl
      · exact hoption x hx
    · simp only [pick, if_neg hto] at hx
      exact hoption x hx
  · rw [hflag, hquiet1, List.mem_cons]
    constructor
    · rintro ((h0 | h0) | h0)
      · exact Or.inl h0
      · exact Or.inr (Or.inl h0.symm)
      · exact Or.inr (Or.inr h0)
    · rintro (h0 | h0 | h0)
      · exact Or.inl (Or.inl h0)
      · exact Or.inl (Or.inr h0.symm)
      · exact Or.inr h0
  · intro hp x hx
    obtain ⟨htp, hp1⟩ := hpast hp
    rcases List.mem_cons.mp hx with hx | hx
    · rw [hx]; exact htp
    · exact hall hp1 x hx
  · by_cases htp : t.isPositional = true
    · refine ⟨0, ?_, ?_⟩
      · intro x hx; simp at hx
      · intro x hx
        simp only [List.drop_zero, List.mem_cons] at hx
        rcases hx with hx | hx
        · rw [hx]; exact htp
        · exact hall (hpos1 htp) x hx
    · refine ⟨k + 1, ?_, ?_⟩
      · intro x hx
        simp only [List.take_succ_cons, List.mem_cons] at hx
        rcases hx with hx | hx
        · rw [hx]; simpa using htp
        · exact hk1 x hx
      · intro x hx
        simp only [List.drop_succ_cons] at hx
        exact hk2 x hx

theorem bucketOf_positional (base : String → String) (st : Scan) (arg : String) (u : Tag) :
    bucketOf u (positional base st arg) = bucketOf u st ++
      (if u = Tag.quietFlag then [] else if positionalTag base arg = u then [arg] else []) := by
  unfold positional positionalTag
  split
  · cases u <;> simp [bucketOf]
  · split
    · cases u <;> simp [bucketOf]
    · cases u <;> simp [bucketOf]

theorem positionalTag_isPositional (base : String → String) (arg : String) :
    (positionalTag base arg).isPositional = true := by
  unfold positionalTag
  split
  · rfl
  · split <;> rfl

theorem positional_keeps (base : String → String) (st : Scan) (arg : String) :
    (positional base st arg).quiet = st.quiet ∧
      (st.inArgs = true → (positional base st arg).inArgs = true) := by
  unfold positional
  split
  · exact ⟨rfl, fun h => h⟩
  · split
    · exact ⟨rfl, fun h => h⟩
    · exact ⟨rfl, fun h => h⟩

theorem step_command {st0 st1 : Scan} (he : Entered st0 st1) (arg : String)
    (hcmd : st1.inCommand = true) :
    Step st0 { st1 with commandArgs := st1.commandArgs ++ [arg] } arg Tag.command := by
  obtain ⟨hb, hq, _, _⟩ := he
  refine ⟨fun u => ?_, (fun h => by cases h), (fun h => by cases h), ?_, fun _ => Or.inr hcmd,
    fun _ => ⟨rfl, Or.inr hcmd⟩⟩
  · rw [← hb u]; cases u <;> simp [bucketOf]
  · simp [hq]

theorem step_positional (base : String → String) {st0 st1 : Scan} (he : Entered st0 st1)
    (arg : String) (hargs : st1.inArgs = true) :
    Step st0 (positional base st1 arg) arg (positionalTag base arg) := by
  obtain ⟨hb, hq, _, _⟩ := he
  have hk := positional_keeps base st1 arg
  have hpos := positionalTag_isPositional base arg
  refine ⟨fun u => ?_, fun h => ?_, fun h => ?_, ?_, fun _ => Or.inl (hk.2 hargs),
    fun _ => ⟨hpos, Or.inl (hk.2 hargs)⟩⟩
  · rw [bucketOf_positional, hb u]
  · rw [h] at hpos; cases hpos
  · rw [h] at hpos; cases hpos
  · rw [hk.1, hq]
    constructor
    · exact fun h => Or.inl h
    · rintro (h | h)
      · exact h
      · rw [h] at hpos; cases hpos

theorem step_quiet {st0 st1 : Scan} (he : Entered st0 st1) (arg : String)
    (hq : arg = "--quiet" ∨ arg = "-q") (hno : ¬ st0.pastOptions) :
    Step st0 { st1 with quiet := true } arg Tag.quietFlag := by
  obtain ⟨hb, _, _, _⟩ := he
  refine ⟨fun u => ?_, fun _ => hq.symm, (fun h => by cases h), ?_, (fun h => by cases h),
    fun h => absurd h hno⟩
  · rw [← hb u]; cases u <;> simp [bucketOf]
  · simp

theorem step_option {st0 st1 : Scan} (he : Entered st0 st1) (arg : String) (flag : Bool)
    (hq : ¬ (arg = "--quiet" ∨ arg = "-q")) (hno : ¬ st0.pastOptions) :
    Step st0 { st1 with cmdArgs := st1.cmdArgs ++ [arg], inArgs := flag } arg Tag.option := by
  obtain ⟨hb, hquiet, _, _⟩ := he
  refine ⟨fun u => ?_, (fun h => by cases h),
    fun _ => ⟨fun h => hq (Or.inr h), fun h => hq (Or.inl h)⟩, ?_, (fun h => by cases h),
    fun h => absurd h hno⟩
  · rw [← hb u]; cases u <;> simp [bucketOf]
  · simp [hquiet]

theorem not_quiet_of_byte0 {next : String} {d : Char} (hd : byte0 next = some d)
    (hne : d ≠ '-') : next ≠ "-q" ∧ next ≠ "--quiet" := by
  constructor
  · intro h; subst h; exact hne (Option.some.inj hd).symm
  · intro h; subst h; exact hne (Option.some.inj hd).symm

theorem step_value (st : Scan) (arg next : String) {d : Char} (hd : byte0 next = some d)
    (hne : d ≠ '-') (hargs : st.inArgs = false) (hcmd : st.inCommand = false) :
    Step { st with cmdArgs := st.cmdArgs ++ [arg] }
      { st with cmdArgs := st.cmdArgs ++ [arg] ++ [next] } next Tag.option := by
  have hno : ¬ Scan.pastOptions { st with cmdArgs := st.cmdArgs ++ [arg] } := by
    rintro (h | h)
    · simp [hargs] at h
    · simp [hcmd] at h
  refine ⟨fun u => ?_, (fun h => by cases h), fun _ => not_quiet_of_byte0 hd hne, ?_,
    (fun h => by cases h), fun h => absurd h hno⟩
  · cases u <;> simp [bucketOf]
  · simp

theorem enterArgs_of_byte0 (st : Scan) {arg : String} {c : Char} (h : byte0 arg = some c) :
    ∃ st1, enterArgs st arg = some st1 ∧ Entered st st1 ∧
      (st1.inArgs = false → c = '-' ∧ st.inArgs = false) := by
  unfold enterArgs
  by_cases hin : st.inArgs = true
  · exact ⟨st, by simp [hin], ⟨fun _ => rfl, rfl, rfl, fun h => h⟩,
      fun h2 => by simp [hin] at h2⟩
  · by_cases hc : c = '-'
    · exact ⟨st, by simp [hin, h, hc], ⟨fun _ => rfl, rfl, rfl, fun h => h⟩,
        fun _ => ⟨hc, by simpa using hin⟩⟩
    · refine ⟨{ st with inArgs := true }, by simp [hin, h, hc],
        ⟨fun u => ?_, rfl, rfl, fun _ => rfl⟩, fun h2 => by simp at h2⟩
      cases u <;> rfl

theorem scanFrom_nil (base : String → String) (st : Scan) : scanFrom base st [] = some st := rfl

theorem scanFrom_cons (base : String → String) (st0 : Scan) (arg : String) (rest : List String) :
    scanFrom base st0 (arg :: rest) =
    (enterArgs st0 arg).bind fun st =>
      if st.inCommand then
        scanFrom base { st with commandArgs := st.commandArgs ++ [arg] } rest
      else if st.inArgs then
        scanFrom base (positional base st arg) rest
      else
        (byte0 arg).bind fun c =>
          if c == '-' then
            if arg = "--quiet" ∨ arg = "-q" then
              scanFrom base { st with quiet := true } rest
            else if arg = "-c" ∨ arg = "--command-substitution" ∨ arg = "-i"
                ∨ arg = "--ignore-env" then
              scanFrom base { st with cmdArgs := st.cmdArgs ++ [arg] } rest
            else
              match rest with
              | [] => some { st with cmdArgs := st.cmdArgs ++ [arg] }
              | next :: rest2 =>
                (byte0 next).bind fun d =>
                  if d != '-' then
                    scanFrom base { st with cmdArgs := st.cmdArgs ++ [arg] ++ [next] } rest2
                  else
                    scanFrom base { st with cmdArgs := st.cmdArgs ++ [arg], inArgs := true }
                      (next :: rest2)
          else
            scanFrom base (positional base { st with inArgs := true } arg) rest := by
  cases rest <;> rfl

theorem scanFrom_tagged (base : String → String) :
    ∀ (n : Nat) (ts : List String) (st0 : Scan), ts.length ≤ n → (∀ t ∈ ts, t ≠ "") →
      ∃ st tags, scanFrom base st0 ts = some st ∧ Tagged st0 st ts tags := by
  intro n
  induction n with
  | zero =>
    intro ts st0 hlen _
    have : ts = [] := List.eq_nil_of_length_eq_zero (Nat.le_zero.mp hlen)
    subst this
    exact ⟨st0, [], rfl, Tagged.nil st0⟩
  | succ n ih =>
    intro ts st0 hlen hne
    cases ts with
    | nil => exact ⟨st0, [], rfl, Tagged.nil st0⟩
    | cons arg rest =>
      have hrest : rest.length ≤ n := by simpa using hlen
      have hneRest : ∀ t ∈ rest, t ≠ "" := fun t ht => hne t (List.mem_cons_of_mem _ ht)
      obtain ⟨c, hc⟩ := byte0_of_ne (hne arg (List.mem_cons_self _ _))
      obtain ⟨st1, he, hent, hdash⟩ := enterArgs_of_byte0 st0 hc
      rw [scanFrom_cons, he]
      simp only [Option.bind]
      by_cases hcmd : st1.inCommand = true
      · rw [if_pos hcmd]
        obtain ⟨st, tags, hs, ht⟩ := ih rest _ hrest hneRest
        exact ⟨st, Tag.command :: tags, hs, Tagged.cons arg Tag.command
          (step_command hent arg hcmd) ht⟩
      · rw [if_neg hcmd]
        by_cases hargs : st1.inArgs = true
        · rw [if_pos hargs]
          obtain ⟨st, tags, hs, ht⟩ := ih rest _ hrest hneRest
          exact ⟨st, positionalTag base arg :: tags, hs,
            Tagged.cons arg _ (step_positional base hent arg hargs) ht⟩
        · rw [if_neg hargs, hc]
          simp only [Option.bind]
          have hargsF : st1.inArgs = false := by simpa using hargs
          have hcmdF : st1.inCommand = false := by simpa using hcmd
          obtain ⟨hcd, hargs0⟩ := hdash hargsF
          have hno : ¬ st0.pastOptions := by
            rintro (h | h)
            · rw [hargs0] at h; cases h
            · rw [← hent.2.2.1, hcmdF] at h; cases h
          subst hcd
          simp only [beq_self_eq_true, if_true]
          by_cases hq : arg = "--quiet" ∨ arg = "-q"
          · rw [if_pos hq]
            obtain ⟨st, tags, hs, ht⟩ := ih rest _ hrest hneRest
            exact ⟨st, Tag.quietFlag :: tags, hs, Tagged.cons arg Tag.quietFlag
              (step_quiet hent arg hq hno) ht⟩
          · rw [if_neg hq]
            by_cases hflag : arg = "-c" ∨ arg = "--command-substitution" ∨ arg = "-i"
                ∨ arg = "--ignore-env"
            · rw [if_pos hflag]
              obtain ⟨st, tags, hs, ht⟩ := ih rest _ hrest hneRest
              exact ⟨st, Tag.option :: tags, hs, Tagged.cons arg Tag.option
                (step_option hent arg st1.inArgs hq hno) ht⟩
            · rw [if_neg hflag]
              cases rest with
              | nil =>
                exact ⟨_, [Tag.option], rfl, Tagged.cons arg Tag.option
                  (step_option hent arg st1.inArgs hq hno) (Tagged.nil _)⟩
              | cons next rest2 =>
                obtain ⟨d, hd⟩ := byte0_of_ne (hneRest next (List.mem_cons_self _ _))
                simp only [hd, Option.bind]
                by_cases hdd : d = '-'
                · subst hdd
                  simp only [bne_self_eq_false, Bool.false_eq_true, if_false]
                  obtain ⟨st, tags, hs, ht⟩ := ih (next :: rest2) _ hrest hneRest
                  exact ⟨st, Tag.option :: tags, hs, Tagged.cons arg Tag.option
                    (step_option hent arg true hq hno) ht⟩
                · have hdne : (d != '-') = true := by simpa using hdd
                  simp only [hdne, if_true]
                  have hrest2 : rest2.length ≤ n := by
                    simp only [List.length_cons] at hrest; omega
                  obtain ⟨st, tags, hs, ht⟩ := ih rest2 _ hrest2
                    (fun t ht => hneRest t (List.mem_cons_of_mem _ ht))
                  exact ⟨st, Tag.option :: Tag.option :: tags, hs,
                    Tagged.cons arg Tag.option (step_option hent arg st1.inArgs hq hno)
                      (Tagged.cons next Tag.option (step_value st1 arg next hd hdd hargsF hcmdF)
                        ht)⟩

theorem Scan.Inv_init : Scan.init.Inv := by
  constructor <;> simp [Scan.init]

theorem enterArgs_inv {st0 st1 : Scan} {arg : String} (h : enterArgs st0 arg = some st1)
    (hinv : st0.Inv) : st1.Inv ∧ st1.inCommand = st0.inCommand ∧
      st1.commandArgs = st0.commandArgs := by
  unfold enterArgs at h
  split at h
  · cases h; exact ⟨hinv, rfl, rfl⟩
  · split at h
    · cases h
    · split at h
      · cases h
        exact ⟨⟨hinv.1, fun _ => rfl⟩, rfl, rfl⟩
      · cases h; exact ⟨hinv, rfl, rfl⟩

theorem positional_inv (base : String → String) {st : Scan} (arg : String)
    (hinv : st.Inv) (hargs : st.inArgs = true) : (positional base st arg).Inv := by
  unfold positional
  split
  · exact hinv
  · split
    · exact hinv
    · exact ⟨fun _ => rfl, fun _ => hargs⟩

theorem scanFrom_inCommand (base : String → String) (rest : List String) :
    ∀ st : Scan, st.inCommand = true → st.inArgs = true →
      scanFrom base st rest = some { st with commandArgs := st.commandArgs ++ rest } := by
  induction rest with
  | nil => intro st _ _; simp [scanFrom_nil]
  | cons a rest ih =>
    intro st hc ha
    rw [scanFrom_cons]
    simp only [enterArgs, ha, if_true, Option.bind, hc]
    rw [ih _ rfl rfl]
    simp

theorem scanFrom_append (base : String → String) (rest : List String) :
    ∀ (n : Nat) (pre : List String) (s st : Scan), pre.length ≤ n → s.Inv →
      scanFrom base s pre = some st → st.commandArgs ≠ [] →
      scanFrom base s (pre ++ rest) = some { st with commandArgs := st.commandArgs ++ rest } := by
  intro n
  induction n with
  | zero =>
    intro pre s st hlen hinv h hne
    have : pre = [] := List.eq_nil_of_length_eq_zero (Nat.le_zero.mp hlen)
    subst this
    rw [scanFrom_nil] at h
    cases h
    have hc := hinv.1 hne
    simpa using scanFrom_inCommand base rest s hc (hinv.2 hc)
  | succ n ih =>
    intro pre s st hlen hinv h hne
    cases pre with
    | nil =>
      rw [scanFrom_nil] at h
      cases h
      have hc := hinv.1 hne
      simpa using scanFrom_inCommand base rest s hc (hinv.2 hc)
    | cons arg pre1 =>
      have hpre1 : pre1.length ≤ n := by simpa using hlen
      rw [List.cons_append, scanFrom_cons]
      rw [scanFrom_cons] at h
      cases he : enterArgs s arg with
      | none => rw [he] at h; cases h
      | some st1 =>
        obtain ⟨hinv1, _, _⟩ := enterArgs_inv he hinv
        rw [he] at h
        simp only [Option.bind] at h ⊢
        by_cases hcmd : st1.inCommand = true
        · rw [if_pos hcmd] at h ⊢
          exact ih pre1 _ st hpre1 ⟨fun _ => hcmd, hinv1.2⟩ h hne
        · rw [if_neg hcmd] at h ⊢
          have hnil : st1.commandArgs = [] := by
            by_contra hx; exact hcmd (hinv1.1 hx)
          have hcmdF : st1.inCommand = false := by simpa using hcmd
          by_cases hargs : st1.inArgs = true
          · rw [if_pos hargs] at h ⊢
            exact ih pre1 _ st hpre1 (positional_inv base arg hinv1 hargs) h hne
          · rw [if_neg hargs] at h ⊢
            cases hb : byte0 arg with
            | none => rw [hb] at h; cases h
            | some c =>
              rw [hb] at h
              simp only at h ⊢
              by_cases hc : (c == '-') = true
              · rw [if_pos hc] at h ⊢
                by_cases hq : arg = "--quiet" ∨ arg = "-q"
                · rw [if_pos hq] at h ⊢
                  exact ih pre1 _ st hpre1 ⟨by simp [hnil], by simp [hcmdF]⟩ h hne
                · rw [if_neg hq] at h ⊢
                  by_cases hflag : arg = "-c" ∨ arg = "--command-substitution" ∨ arg = "-i"
                      ∨ arg = "--ignore-env"
                  · rw [if_pos hflag] at h ⊢
                    exact ih pre1 _ st hpre1 ⟨by simp [hnil], by simp [hcmdF]⟩ h hne
                  · rw [if_neg hflag] at h ⊢
                    cases pre1 with
                    | nil =>
                      simp only [Option.some.injEq] at h
                      subst h
                      exact absurd hnil hne
                    | cons next pre2 =>
                      rw [List.cons_append]
                      simp only at h ⊢
                      cases hn : byte0 next with
                      | none => rw [hn] at h; cases h
                      | some d =>
                        rw [hn] at h
                        simp only at h ⊢
                        by_cases hd : (d != '-') = true
                        · rw [if_pos hd] at h ⊢
                          have hpre2 : pre2.length ≤ n := by
                            simp only [List.length_cons] at hpre1; omega
                          exact ih pre2 _ st hpre2 ⟨by simp [hnil], by simp [hcmdF]⟩ h hne
                        · rw [if_neg hd] at h ⊢
                          have := ih (next :: pre2) _ st hpre1
                            ⟨by simp [hnil], by simp⟩ h hne
                          simpa using this
              · rw [if_neg hc] at h ⊢
                exact ih pre1 _ st hpre1
                  (positional_inv base arg ⟨by simp [hnil], by simp⟩ rfl) h hne

theorem pick_length_sum : ∀ (ts : List String) (tags : List Tag), tags.length = ts.length →
    (pick Tag.option ts tags).length + (pick Tag.assignment ts tags).length +
      (pick Tag.envFile ts tags).length + (pick Tag.command ts tags).length +
      (pick Tag.quietFlag ts tags).length = ts.length := by
  intro ts
  induction ts with
  | nil => intro tags _; cases tags <;> simp [pick]
  | cons a ts ih =>
    intro tags hl
    cases tags with
    | nil => simp at hl
    | cons b bs =>
      have := ih bs (by simpa using hl)
      cases b <;> simp [pick] <;> omega

/-! ## Claims on the classifier -/

/-- C1 (as stated, refuted): on the two non-empty tokens `-q cmd` the four
buckets hold one token in total, not two: the quiet flag is in no bucket. -/
theorem classify_quiet_token_in_no_bucket :
    (classify filepathBase ["-q", "cmd"]).map bucketTotal = some 1 ∧
      ["-q", "cmd"].length = 2 ∧
      classify filepathBase ["-q", "cmd"] =
        some { quiet := true, commandArgs := ["cmd"], cmdArgs := [], envVars := [],
               envFiles := [], inCommand := true, inArgs := true } := by
  decide

/-- C1 (amended): for every token stream whose tokens are all non-empty the
classifier returns, and the positions can be tagged, one tag each, so that each
of the four buckets is exactly the tokens of its tag in their original order.
The positions left over (tag `quietFlag`) hold only `-q` or `--quiet`, the
bucket lengths plus the number of those positions is the number of tokens,
`quiet` is recorded exactly when there is such a position, no `-q` or
`--quiet` is in the option bucket, and the positions tagged as option or quiet
flag all come before the positions of the three positional buckets. -/
theorem classify_partition (base : String → String) (argv : List String)
    (hne : ∀ t ∈ argv, t ≠ "") :
    ∃ st tags, classify base argv = some st ∧ tags.length = argv.length ∧
      st.cmdArgs = pick Tag.option argv tags ∧
      st.envVars = pick Tag.assignment argv tags ∧
      st.envFiles = pick Tag.envFile argv tags ∧
      st.commandArgs = pick Tag.command argv tags ∧
      (∀ x ∈ pick Tag.quietFlag argv tags, x = "-q" ∨ x = "--quiet") ∧
      bucketTotal st + (pick Tag.quietFlag argv tags).length = argv.length ∧
      (st.quiet = true ↔ Tag.quietFlag ∈ tags) ∧
      (∀ x ∈ st.cmdArgs, x ≠ "-q" ∧ x ≠ "--quiet") ∧
      (∃ k, (∀ t ∈ tags.take k, t = Tag.option ∨ t = Tag.quietFlag) ∧
        ∀ t ∈ tags.drop k, t = Tag.assignment ∨ t = Tag.envFile ∨ t = Tag.command) := by
  obtain ⟨st, tags, hs, hl, hb, hq, hopt, hflag, _, k, hk1, hk2⟩ :=
    scanFrom_tagged base argv.length argv Scan.init le_rfl hne
  have h1 : st.cmdArgs = pick Tag.option argv tags := by
    simpa [bucketOf, Scan.init] using hb Tag.option
  have h2 : st.envVars = pick Tag.assignment argv tags := by
    simpa [bucketOf, Scan.init] using hb Tag.assignment
  have h3 : st.envFiles = pick Tag.envFile argv tags := by
    simpa [bucketOf, Scan.init] using hb Tag.envFile
  have h4 : st.commandArgs = pick Tag.command argv tags := by
    simpa [bucketOf, Scan.init] using hb Tag.command
  refine ⟨st, tags, hs, hl, h1, h2, h3, h4, hq, ?_, ?_, ?_, k, ?_, ?_⟩
  · have := pick_length_sum argv tags hl
    unfold bucketTotal
    rw [h1, h2, h3, h4]
    omega
  · rw [hflag]
    simp [Scan.init]
  · rw [h1]; exact hopt
  · intro t ht
    have := hk1 t ht
    cases t <;> simp [Tag.isPositional] at this ⊢
  · intro t ht
    have := hk2 t ht
    cases t <;> simp [Tag.isPositional] at this ⊢

/-- Witness for C1 (amended): the stream `-q FOO=1 cmd`. -/
theorem classify_partition_witness :
    (∀ t ∈ ["-q", "FOO=1", "cmd"], t ≠ "") ∧
    ∃ st tags, classify filepathBase ["-q", "FOO=1", "cmd"] = some st ∧
      tags.length = ["-q", "FOO=1", "cmd"].length ∧
      st.cmdArgs = pick Tag.option ["-q", "FOO=1", "cmd"] tags ∧
      st.envVars = pick Tag.assignment ["-q", "FOO=1", "cmd"] tags ∧
      st.envFiles = pick Tag.envFile ["-q", "FOO=1", "cmd"] tags ∧
      st.commandArgs = pick Tag.command ["-q", "FOO=1", "cmd"] tags ∧
      (∀ x ∈ pick Tag.quietFlag ["-q", "FOO=1", "cmd"] tags, x = "-q" ∨ x = "--quiet") ∧
      bucketTotal st + (pick Tag.quietFlag ["-q", "FOO=1", "cmd"] tags).length =
        ["-q", "FOO=1", "cmd"].length ∧
      (st.quiet = true ↔ Tag.quietFlag ∈ tags) ∧
      (∀ x ∈ st.cmdArgs, x ≠ "-q" ∧ x ≠ "--quiet") ∧
      (∃ k, (∀ t ∈ tags.take k, t = Tag.option ∨ t = Tag.quietFlag) ∧
        ∀ t ∈ tags.drop k, t = Tag.assignment ∨ t = Tag.envFile ∨ t = Tag.command) :=
  ⟨by decide, classify_partition filepathBase ["-q", "FOO=1", "cmd"] (by decide)⟩

/-- C2: once a run of the classifier over `pre` has put a token in the command
bucket, the run over `pre ++ rest` ends in the same state with every token of
`rest` appended to the command bucket, unchanged and in order, whatever the
shape of those tokens. -/
theorem command_region_verbatim (base : String → String) (pre rest : List String) (st : Scan)
    (h : classify base pre = some st) (hcmd : st.commandArgs ≠ []) :
    classify base (pre ++ rest) = some { st with commandArgs := st.commandArgs ++ rest } :=
  scanFrom_append base rest pre.length pre Scan.init st le_rfl Scan.Inv_init h hcmd

/-- Witness for C2: `FOO=1 run` followed by `A=B .env`. -/
theorem command_region_verbatim_witness :
    classify filepathBase ["FOO=1", "run"] =
      some { quiet := false, commandArgs := ["run"], cmdArgs := [], envVars := ["FOO=1"],
             envFiles := [], inCommand := true, inArgs := true } ∧
    classify filepathBase (["FOO=1", "run"] ++ ["A=B", ".env"]) =
      some { quiet := false, commandArgs := ["run", "A=B", ".env"], cmdArgs := [],
             envVars := ["FOO=1"], envFiles := [], inCommand := true, inArgs := true } :=
  ⟨by decide,
   command_region_verbatim filepathBase ["FOO=1", "run"] ["A=B", ".env"]
     { quiet := false, commandArgs := ["run"], cmdArgs := [], envVars := ["FOO=1"],
       envFiles := [], inCommand := true, inArgs := true } (by decide) (by decide)⟩

/-- C7 (the code at the claim's own example): for `--shim -i cmd` the command
bucket is `-i cmd`; the leading token `-i` is put in the command bucket and
only `--shim` is in the option bucket. -/
theorem classify_option_after_option_is_command :
    classify filepathBase ["--shim", "-i", "cmd"] =
      some { quiet := false, commandArgs := ["-i", "cmd"], cmdArgs := ["--shim"],
             envVars := [], envFiles := [], inCommand := true, inArgs := true } := by
  decide

/-- C9 (the code at the failing inputs): an empty first token, or an empty
token after the flag `-i`, makes the read of `arg[0]` at line 78 go out of
range, and an empty token right after the option `-e` makes the read of
`argv[j][0]` at line 118 go out of range; no classification is produced. -/
theorem classify_empty_token_panics (base : String → String) :
    (∀ rest, classify base ("" :: rest) = none) ∧ classify base ["-i", ""] = none ∧
      classify base ["-e", ""] = none := by
  refine ⟨fun rest => ?_, rfl, rfl⟩
  cases rest <;> rfl

/-! ## Lemmas on mappings and documents -/

theorem mapGet_mapDelete_self (m : Vars) (k : String) : mapGet (mapDelete m k) k = none := by
  induction m with
  | nil => rfl
  | cons p rest ih =>
    obtain ⟨a, b⟩ := p
    by_cases hak : a = k
    · simp [mapDelete, hak, ih]
    · simp [mapDelete, mapGet, hak, ih]

theorem mapGet_mapDelete_ne (m : Vars) {k j : String} (hne : k ≠ j) :
    mapGet (mapDelete m k) j = mapGet m j := by
  induction m with
  | nil => rfl
  | cons p rest ih =>
    obtain ⟨a, b⟩ := p
    by_cases hak : a = k
    · have haj : a ≠ j := by rw [hak]; exact hne
      simp [mapDelete, mapGet, hak, ih, hne]
    · by_cases haj : a = j
      · subst haj
        simp [mapDelete, mapGet, hak]
      · simp [mapDelete, mapGet, hak, haj, ih]

theorem mapDelete_absent (m : Vars) (k : String) (habs : mapGet m k = none) :
    mapDelete m k = m := by
  induction m with
  | nil => rfl
  | cons p rest ih =>
    obtain ⟨a, b⟩ := p
    by_cases hak : a = k
    · simp [mapGet, hak] at habs
    · simp only [mapGet, if_neg hak] at habs
      simp [mapDelete, hak, ih habs]

theorem mapGet_mapSet_self (m : Vars) (k v : String) : mapGet (mapSet m k v) k = some v := by
  simp [mapSet, mapGet]

theorem mapGet_mapSet_ne (m : Vars) {k j : String} (v : String) (hne : k ≠ j) :
    mapGet (mapSet m k v) j = mapGet m j := by
  simp [mapSet, mapGet, hne, mapGet_mapDelete_ne m hne]

theorem mapGet_foldl_delete_mem (us : List String) (k : String) (hk : k ∈ us) :
    ∀ m : Vars, mapGet (us.foldl mapDelete m) k = none := by
  induction us with
  | nil => simp at hk
  | cons u rest ih =>
    intro m
    simp only [List.foldl_cons]
    by_cases hmem : k ∈ rest
    · exact ih hmem _
    · have huk : u = k := by
        rcases List.mem_cons.mp hk with h1 | h1
        · exact h1.symm
        · exact absurd h1 hmem
      subst huk
      clear ih hk
      have key : ∀ (l : List String) (m1 : Vars), mapGet m1 u = none →
          mapGet (l.foldl mapDelete m1) u = none := by
        intro l
        induction l with
        | nil => intro m1 h1; exact h1
        | cons x l ihl =>
          intro m1 h1
          simp only [List.foldl_cons]
          apply ihl
          by_cases hxu : x = u
          · rw [hxu]; exact mapGet_mapDelete_self m1 u
          · rw [mapGet_mapDelete_ne m1 hxu]; exact h1
      exact key rest _ (mapGet_mapDelete_self m u)

theorem laterOr_assoc (a b c : Option String) :
    laterOr a (laterOr b c) = laterOr (laterOr a b) c := by
  cases a <;> rfl

theorem lastValue_append (a b : Document) (k : String) :
    lastValue (a ++ b) k = laterOr (lastValue b k) (lastValue a k) := by
  induction a with
  | nil => cases hb : lastValue b k <;> simp [lastValue, laterOr, hb]
  | cons n rest ih =>
    rw [List.cons_append]
    simp only [lastValue]
    rw [ih, laterOr_assoc]

theorem isVar_iff (name : String) (n : Node) :
    Node.isVar name n = true ↔ n.type = TokenType.variableToken ∧ n.key = some name := by
  simp [Node.isVar]

theorem lastValue_map_same (k v : String) (d : Document) :
    lastValue (d.map fun n => if Node.isVar k n then { n with value := v } else n) k =
      if d.any (Node.isVar k) then some v else none := by
  induction d with
  | nil => rfl
  | cons n rest ih =>
    simp only [List.map_cons, lastValue, ih, List.any_cons]
    by_cases hn : Node.isVar k n = true
    · have hn2 : Node.isVar k { n with value := v } = true := by
        rw [isVar_iff] at hn ⊢; exact hn
      by_cases hr : rest.any (Node.isVar k) = true
      · simp [hn, hr, laterOr]
      · simp [hn, hr, hn2, laterOr]
    · by_cases hr : rest.any (Node.isVar k) = true
      · simp [hn, hr, laterOr]
      · simp [hn, hr, laterOr]

theorem lastValue_map_other {k j : String} (v : String) (hne : k ≠ j) (d : Document) :
    lastValue (d.map fun n => if Node.isVar k n then { n with value := v } else n) j =
      lastValue d j := by
  induction d with
  | nil => rfl
  | cons n rest ih =>
    simp only [List.map_cons, lastValue, ih]
    by_cases hn : Node.isVar k n = true
    · have hj : Node.isVar j n = false := by
        cases hjv : Node.isVar j n with
        | false => rfl
        | true =>
          rw [isVar_iff] at hn hjv
          have : some k = some j := hn.2.symm.trans hjv.2
          exact absurd (Option.some.inj this) hne
      have hj2 : Node.isVar j { n with value := v } = false := by
        simpa [Node.isVar] using hj
      simp [hn, hj, hj2]
    · simp [hn]

theorem lastValue_overlay (d : Document) (k v j : String) :
    lastValue (overlay d k v) j = if k = j then some v else lastValue d j := by
  unfold overlay
  by_cases hany : d.any (Node.isVar k) = true
  · rw [if_pos hany]
    by_cases hkj : k = j
    · subst hkj
      rw [lastValue_map_same, if_pos hany, if_pos rfl]
    · rw [lastValue_map_other v hkj, if_neg hkj]
  · rw [if_neg hany, lastValue_append]
    by_cases hkj : k = j
    · subst hkj
      simp [lastValue, Node.isVar, laterOr]
    · simp [lastValue, Node.isVar, laterOr, hkj]

theorem lastValue_merge (next : Document) (k : String) :
    ∀ d : Document, lastValue (merge d next) k = laterOr (lastValue next k) (lastValue d k) := by
  induction next with
  | nil => intro d; rfl
  | cons n rest ih =>
    intro d
    have hstep : merge d (n :: rest) =
        merge (match n.type, n.key with
               | TokenType.variableToken, some j => overlay d j n.value
               | _, _ => d ++ [n]) rest := rfl
    rw [hstep, ih]
    simp only [lastValue]
    rw [← laterOr_assoc]
    congr 1
    cases hty : n.type with
    | otherToken =>
      simp [lastValue_append, lastValue, laterOr, Node.isVar, hty]
    | variableToken =>
      cases hkey : n.key with
      | none =>
        simp [lastValue_append, lastValue, laterOr, Node.isVar, hkey]
      | some j =>
        simp only [lastValue_overlay]
        by_cases hjk : j = k
        · simp [Node.isVar, hty, hkey, hjk, laterOr]
        · simp [Node.isVar, hty, hkey, hjk, laterOr]

theorem lastValue_foldl_merge (ds : List Document) (k : String) :
    ∀ d : Document, lastValue (ds.foldl merge d) k = laterOr (docsValue ds k) (lastValue d k) := by
  induction ds with
  | nil => intro d; rfl
  | cons x rest ih =>
    intro d
    simp only [List.foldl_cons, ih, lastValue_merge, docsValue]
    rw [laterOr_assoc]

theorem docsValue_append (a b : List Document) (k : String) :
    docsValue (a ++ b) k = laterOr (docsValue b k) (docsValue a k) := by
  induction a with
  | nil => cases hb : docsValue b k <;> simp [docsValue, laterOr, hb]
  | cons n rest ih =>
    rw [List.cons_append]
    simp only [docsValue]
    rw [ih, laterOr_assoc]

theorem inlineValue_append (a b : List String) (k : String) :
    inlineValue (a ++ b) k = laterOr (inlineValue b k) (inlineValue a k) := by
  induction a with
  | nil => cases hb : inlineValue b k <;> simp [inlineValue, laterOr, hb]
  | cons n rest ih =>
    rw [List.cons_append]
    simp only [inlineValue]
    rw [ih, laterOr_assoc]

/-! ## Lemmas on the resolution pipeline -/

theorem Result.bind_eq_ok {α β : Type} {r : Result α} {f : α → Result β} {b : β}
    (h : r.bind f = .ok b) : ∃ a, r = .ok a ∧ f a = .ok b := by
  cases r with
  | panic => cases h
  | exit c o e => cases h
  | ok a => exact ⟨a, rfl, h⟩

theorem mergeFiles_eq (h : Host) (quiet : Bool) (fs : List String) :
    ∀ d : Document, mergeFiles h quiet d fs =
      (loadAll h quiet fs).bind fun ds => .ok (ds.foldl merge d) := by
  induction fs with
  | nil => intro d; rfl
  | cons f rest ih =>
    intro d
    have e1 : mergeFiles h quiet d (f :: rest) =
        (loadEnvFile h quiet f).bind fun nextDoc => mergeFiles h quiet (merge d nextDoc) rest :=
      rfl
    have e2 : loadAll h quiet (f :: rest) =
        (loadEnvFile h quiet f).bind fun x =>
          (loadAll h quiet rest).bind fun ds => .ok (x :: ds) := rfl
    rw [e1, e2]
    cases loadEnvFile h quiet f with
    | panic => rfl
    | exit c o e => rfl
    | ok x =>
      simp only [Result.bind]
      rw [ih]
      cases loadAll h quiet rest <;> rfl

theorem inlineEntry_eq_ok {quiet : Bool} {envVar : String} {nv : String × String}
    (h : inlineEntry quiet envVar = .ok nv) : cutAtEquals envVar = some nv := by
  unfold inlineEntry at h
  cases hc : cutAtEquals envVar with
  | none => rw [hc] at h; cases h
  | some p =>
    obtain ⟨n, v⟩ := p
    rw [hc] at h
    simp only at h
    split at h
    · cases h
    · cases h; rfl

theorem addInline_lastValue (quiet : Bool) (es : List String) (k : String) :
    ∀ (d docs : Document), addInline quiet d es = .ok docs →
      lastValue docs k = laterOr (inlineValue es k) (lastValue d k) := by
  induction es with
  | nil =>
    intro d docs h
    cases h
    rfl
  | cons e rest ih =>
    intro d docs h
    have e1 : addInline quiet d (e :: rest) =
        (inlineEntry quiet e).bind fun nv => addInline quiet (addVariable d nv.1 nv.2) rest := rfl
    rw [e1] at h
    obtain ⟨nv, hnv, h⟩ := Result.bind_eq_ok h
    have hcut := inlineEntry_eq_ok hnv
    rw [ih _ _ h]
    simp only [inlineValue, hcut]
    rw [← laterOr_assoc]
    congr 1
    unfold addVariable
    rw [lastValue_append]
    obtain ⟨n, v⟩ := nv
    by_cases hnk : n = k
    · simp [lastValue, Node.isVar, laterOr, hnk]
    · simp [lastValue, Node.isVar, laterOr, hnk]

theorem assignNode_eq_ok {h : Host} {quiet : Bool} {opts : ExpandOptions} {node : Node}
    {vars vars1 : Vars} (hn : assignNode h quiet opts node vars = .ok vars1) :
    ∃ name s m, node.key = some name ∧ h.expand opts node.value vars = .ok (s, m) ∧
      vars1 = mapSet m name s := by
  unfold assignNode at hn
  cases hk : node.key with
  | none => rw [hk] at hn; cases hn
  | some name =>
    rw [hk] at hn
    simp only at hn
    split at hn
    · cases hn
    · cases he : h.expand opts node.value vars with
      | error e => rw [he] at hn; cases hn
      | ok p =>
        obtain ⟨s, m⟩ := p
        rw [he] at hn
        cases hn
        exact ⟨name, s, m, rfl, rfl, rfl⟩

theorem assignLoop_value (h : Host) (quiet : Bool) (opts : ExpandOptions) (k : String)
    (docs : List Node) (halone : LeavesAlone h k docs) :
    ∀ (v0 vars : Vars), assignLoop h quiet opts docs v0 = .ok vars →
      (∀ v, lastValue docs k = some v →
        ∃ m s m1, h.expand opts v m = .ok (s, m1) ∧ mapGet vars k = some s) ∧
      (lastValue docs k = none → mapGet vars k = mapGet v0 k) := by
  induction docs with
  | nil =>
    intro v0 vars hrun
    cases hrun
    exact ⟨fun v hv => (by cases hv), fun _ => rfl⟩
  | cons n rest ih =>
    intro v0 vars hrun
    have hrestAlone : LeavesAlone h k rest :=
      fun x hx => halone x (List.mem_cons_of_mem _ hx)
    have ih := ih hrestAlone
    have e1 : assignLoop h quiet opts (n :: rest) v0 =
        if n.type = TokenType.variableToken then
          (assignNode h quiet opts n v0).bind fun vars1 => assignLoop h quiet opts rest vars1
        else assignLoop h quiet opts rest v0 := rfl
    rw [e1] at hrun
    by_cases hty : n.type = TokenType.variableToken
    · rw [if_pos hty] at hrun
      obtain ⟨v1, hnode, hrest⟩ := Result.bind_eq_ok hrun
      obtain ⟨name, s, m, hkey, hexp, hv1⟩ := assignNode_eq_ok hnode
      obtain ⟨ihs, ihn⟩ := ih v1 vars hrest
      cases hlr : lastValue rest k with
      | some w =>
        refine ⟨fun v hv => ?_, fun hv => ?_⟩
        · simp only [lastValue, hlr, laterOr] at hv
          cases hv
          exact ihs w hlr
        · simp [lastValue, hlr, laterOr] at hv
      | none =>
        have hvars := ihn hlr
        by_cases hnk : name = k
        · subst hnk
          have hisv : Node.isVar name n = true := (isVar_iff name n).mpr ⟨hty, hkey⟩
          refine ⟨fun v hv => ?_, fun hv => ?_⟩
          · simp only [lastValue, hlr, laterOr, hisv, if_true] at hv
            cases hv
            exact ⟨v0, s, m, hexp, (by rw [hvars, hv1, mapGet_mapSet_self])⟩
          · simp [lastValue, hlr, laterOr, hisv] at hv
        · have hisv : Node.isVar k n = false := by
            cases hx : Node.isVar k n with
            | false => rfl
            | true =>
              rw [isVar_iff] at hx
              rw [hkey] at hx
              exact absurd (Option.some.inj hx.2) hnk
          refine ⟨fun v hv => ?_, fun _ => ?_⟩
          · simp [lastValue, hlr, laterOr, hisv] at hv
          · have hkne : n.key ≠ some k := by
              rw [hkey]; exact fun hx => hnk (Option.some.inj hx)
            have hm : mapGet m k = mapGet v0 k :=
              halone n (List.mem_cons_self _ _) hty hkne _ _ _ _ hexp
            rw [hvars, hv1, mapGet_mapSet_ne m s hnk, hm]
    · rw [if_neg hty] at hrun
      obtain ⟨ihs, ihn⟩ := ih v0 vars hrun
      have hisv : Node.isVar k n = false := by
        cases hx : Node.isVar k n with
        | false => rfl
        | true => exact absurd ((isVar_iff k n).mp hx).1 hty
      cases hlr : lastValue rest k with
      | some w =>
        refine ⟨fun v hv => ?_, fun hv => ?_⟩
        · simp only [lastValue, hlr, laterOr] at hv
          cases hv
          exact ihs w hlr
        · simp [lastValue, hlr, laterOr] at hv
      | none =>
        refine ⟨fun v hv => ?_, fun _ => ihn hlr⟩
        simp [lastValue, hlr, laterOr, hisv] at hv

theorem laterOr_none_right (x : Option String) : laterOr x none = x := by
  cases x <;> rfl

theorem loadAll_append_ok (h : Host) (quiet : Bool) (a b : List String) (da db : List Document)
    (ha : loadAll h quiet a = .ok da) (hb : loadAll h quiet b = .ok db) :
    loadAll h quiet (a ++ b) = .ok (da ++ db) := by
  induction a generalizing da with
  | nil => cases ha; exact hb
  | cons f rest ih =>
    have e3 : loadAll h quiet (f :: rest) =
        (loadEnvFile h quiet f).bind fun x =>
          (loadAll h quiet rest).bind fun ds => .ok (x :: ds) := rfl
    rw [e3] at ha
    obtain ⟨x, hx, ha⟩ := Result.bind_eq_ok ha
    obtain ⟨ds1, hds1, ha⟩ := Result.bind_eq_ok ha
    cases ha
    have e2 : loadAll h quiet (f :: (rest ++ b)) =
        (loadEnvFile h quiet f).bind fun x =>
          (loadAll h quiet (rest ++ b)).bind fun ds => .ok (x :: ds) := rfl
    rw [List.cons_append, e2, hx, ih ds1 hds1]
    rfl

/-- The value the final mapping gives a name is decided by the last entry
for the name: an inline assignment if there is one, else the last env file
that names it, else the seed. -/
theorem finalVars_value (h : Host) (quiet : Bool) (fl : Flags) (envFiles envVars : List String)
    (k : String) (vars : Vars) (ds : List Document) (docs : Document)
    (hdocs : buildDocument h quiet fl envFiles envVars = .ok docs) (halone : LeavesAlone h k docs)
    (hload : loadAll h quiet (envFiles ++ fl.envFilesValue) = .ok ds)
    (hrun : finalVars h quiet fl envFiles envVars = .ok vars) :
    (∀ v, laterOr (inlineValue (envVars ++ fl.envVarsValue) k) (docsValue ds k) = some v →
      ∃ m s m1, h.expand (expandOptions fl) v m = .ok (s, m1) ∧ mapGet vars k = some s) ∧
    (laterOr (inlineValue (envVars ++ fl.envVarsValue) k) (docsValue ds k) = none →
      mapGet vars k = mapGet (seedVars h fl) k) := by
  unfold finalVars at hrun
  rw [hdocs] at hrun
  have hassign : assignLoop h quiet (expandOptions fl) docs (seedVars h fl) = .ok vars := hrun
  unfold buildDocument at hdocs
  obtain ⟨docs0, hmerge, hadd⟩ := Result.bind_eq_ok hdocs
  rw [mergeFiles_eq, hload] at hmerge
  cases hmerge
  have hlast := addInline_lastValue quiet (envVars ++ fl.envVarsValue) k _ _ hadd
  rw [lastValue_foldl_merge] at hlast
  have hnil : lastValue ([] : Document) k = none := rfl
  rw [hnil, laterOr_none_right] at hlast
  rw [← hlast]
  exact assignLoop_value h quiet (expandOptions fl) k docs halone _ _ hassign

theorem finalVars_plain (h : Host) (quiet : Bool) (fl : Flags) (envFiles envVars : List String)
    (k v : String) (vars : Vars) (ds : List Document) (docs : Document)
    (hdocs : buildDocument h quiet fl envFiles envVars = .ok docs) (halone : LeavesAlone h k docs)
    (hplain : PassesPlain h)
    (hload : loadAll h quiet (envFiles ++ fl.envFilesValue) = .ok ds)
    (hrun : finalVars h quiet fl envFiles envVars = .ok vars)
    (hv : laterOr (inlineValue (envVars ++ fl.envVarsValue) k) (docsValue ds k) = some v)
    (hfree : '$' ∉ v.data) : mapGet vars k = some v := by
  obtain ⟨m, s, m1, hexp, hget⟩ :=
    (finalVars_value h quiet fl envFiles envVars k vars ds docs hdocs halone hload hrun).1 v hv
  rw [hget, hplain _ _ _ _ _ hfree hexp]

theorem finalVars_loads (h : Host) (quiet : Bool) (fl : Flags) (envFiles envVars : List String)
    (vars : Vars) (hrun : finalVars h quiet fl envFiles envVars = .ok vars) :
    ∃ ds, loadAll h quiet (envFiles ++ fl.envFilesValue) = .ok ds := by
  unfold finalVars buildDocument at hrun
  obtain ⟨docs, hdocs, _⟩ := Result.bind_eq_ok hrun
  obtain ⟨docs0, hmerge, _⟩ := Result.bind_eq_ok hdocs
  rw [mergeFiles_eq] at hmerge
  obtain ⟨ds, hds, _⟩ := Result.bind_eq_ok hmerge
  exact ⟨ds, hds⟩

theorem idEngine_leavesAlone (environ : Vars) (files : List (String × Document)) (k : String)
    (docs : Document) : LeavesAlone (tableHost environ files idEngine) k docs := by
  intro n _ _ _ opts m s1 m1 he
  simp only [tableHost, idEngine, Except.ok.injEq, Prod.mk.injEq] at he
  rw [he.2]

theorem idEngine_passesPlain (environ : Vars) (files : List (String × Document)) :
    PassesPlain (tableHost environ files idEngine) := by
  intro opts s m s1 m1 _ he
  simp only [tableHost, idEngine, Except.ok.injEq, Prod.mk.injEq] at he
  exact he.1.symm

theorem dollarScan_plain (m : Vars) :
    ∀ cs : List Char, '$' ∉ cs → dollarScan m none cs = cs := by
  intro cs
  induction cs with
  | nil => intro _; rfl
  | cons c rest ih =>
    intro hfree
    have hc : c ≠ '$' := fun h => hfree (by rw [h]; exact List.mem_cons_self _ _)
    have hrest : '$' ∉ rest := fun h => hfree (List.mem_cons_of_mem _ h)
    simp [dollarScan, hc, ih hrest]

theorem assignDefaultForm_plain (cs : List Char) (hfree : '$' ∉ cs) :
    assignDefaultForm cs = none := by
  unfold assignDefaultForm
  split
  · exact absurd (List.mem_cons_self _ _) hfree
  · rfl

theorem assignDefaultEngine_passesPlain (environ : Vars) (files : List (String × Document)) :
    PassesPlain (tableHost environ files assignDefaultEngine) := by
  intro opts s m s1 m1 hfree he
  simp only [tableHost, assignDefaultEngine, assignDefaultForm_plain s.data hfree, dollarEngine,
    dollarScan_plain m s.data hfree, Except.ok.injEq, Prod.mk.injEq] at he
  exact he.1.symm

theorem addInline_eq (quiet : Bool) (es : List String) :
    ∀ (d docs : Document), addInline quiet d es = .ok docs → docs = d ++ inlineNodes es := by
  induction es with
  | nil =>
    intro d docs h
    cases h
    simp [inlineNodes]
  | cons e rest ih =>
    intro d docs h
    have e1 : addInline quiet d (e :: rest) =
        (inlineEntry quiet e).bind fun nv => addInline quiet (addVariable d nv.1 nv.2) rest := rfl
    rw [e1] at h
    obtain ⟨nv, hnv, h⟩ := Result.bind_eq_ok h
    have hcut := inlineEntry_eq_ok hnv
    rw [ih _ _ h]
    obtain ⟨n, v⟩ := nv
    simp [inlineNodes, hcut, addVariable, var]

theorem inlineNodes_append (a b : List String) :
    inlineNodes (a ++ b) = inlineNodes a ++ inlineNodes b := by
  induction a with
  | nil => rfl
  | cons e rest ih =>
    rw [List.cons_append]
    simp only [inlineNodes, ih]
    cases cutAtEquals e with
    | none => rfl
    | some p => rfl

theorem lastValue_inlineNodes (es : List String) (k : String) :
    lastValue (inlineNodes es) k = inlineValue es k := by
  induction es with
  | nil => rfl
  | cons e rest ih =>
    simp only [inlineNodes, inlineValue]
    cases hc : cutAtEquals e with
    | none =>
      simp only [ih]
      rw [laterOr_none_right]
    | some p =>
      obtain ⟨n, v⟩ := p
      simp only [lastValue, ih]
      by_cases hnk : n = k
      · simp [var, Node.isVar, hnk]
      · simp [var, Node.isVar, hnk]

theorem inlineValue_split (es : List String) (k v : String) (h : inlineValue es k = some v) :
    ∃ es1 e es2, es = es1 ++ e :: es2 ∧ cutAtEquals e = some (k, v) ∧
      inlineValue es2 k = none := by
  induction es with
  | nil => cases h
  | cons e rest ih =>
    simp only [inlineValue] at h
    cases hr : inlineValue rest k with
    | some w =>
      rw [hr] at h
      simp only [laterOr, Option.some.injEq] at h
      subst h
      obtain ⟨es1, e1, es2, hsplit, hcut, hnone⟩ := ih hr
      exact ⟨e :: es1, e1, es2, by rw [hsplit]; rfl, hcut, hnone⟩
    | none =>
      rw [hr] at h
      simp only [laterOr] at h
      cases hc : cutAtEquals e with
      | none => rw [hc] at h; cases h
      | some p =>
        obtain ⟨n, w⟩ := p
        rw [hc] at h
        simp only at h
        by_cases hnk : n = k
        · rw [if_pos hnk] at h
          cases h
          subst hnk
          exact ⟨[], e, rest, rfl, hc, hr⟩
        · rw [if_neg hnk] at h
          cases h

theorem assignLoop_append (h : Host) (quiet : Bool) (opts : ExpandOptions) (a b : List Node) :
    ∀ v : Vars, assignLoop h quiet opts (a ++ b) v =
      (assignLoop h quiet opts a v).bind fun m => assignLoop h quiet opts b m := by
  induction a with
  | nil => intro v; rfl
  | cons n rest ih =>
    intro v
    have e1 : ∀ (l : List Node), assignLoop h quiet opts (n :: l) v =
        if n.type = TokenType.variableToken then
          (assignNode h quiet opts n v).bind fun vars1 => assignLoop h quiet opts l vars1
        else assignLoop h quiet opts l v := fun _ => rfl
    rw [List.cons_append, e1, e1]
    by_cases hty : n.type = TokenType.variableToken
    · rw [if_pos hty, if_pos hty]
      cases assignNode h quiet opts n v with
      | panic => rfl
      | exit c o e => rfl
      | ok v1 =>
        simp only [Result.bind]
        exact ih v1
    · rw [if_neg hty, if_neg hty]
      exact ih v

/-! ## Claims on the split-string rewrite and the launch -/

/-- C10 (the code at the failing inputs): with `-S` alone the condition of
line 53 holds and `argv[1]` is read out of range; with `-S` followed by two
tokens the rewrite is applied all the same, to `argv[1]`; the two-token forms
are rewritten and `--split-string` alone is left as given. -/
theorem splitString_dash_S_any_length (split : String → List String) :
    splitString split ["-S"] = none ∧
    (∀ a b, splitString split ["-S", a, b] = some (split a)) ∧
    (∀ a, splitString split ["-S", a] = some (split a)) ∧
    (∀ a, splitString split ["--split-string", a] = some (split a)) ∧
    splitString split ["--split-string"] = some ["--split-string"] := by
  refine ⟨rfl, fun _ _ => rfl, fun _ => rfl, fun _ => rfl, rfl⟩

/-- C8 (the code when the spawn fails): whenever the launch reaches the spawn
(no working directory given, or one that resolves to `d`) and the spawn reports
a failed start, the exit code is 1 and the launch-failure diagnostic is written
exactly when `quiet` is set; without `quiet` nothing is written. -/
theorem launch_failure_diagnostic_when_quiet (h : Host) (quiet : Bool) (chdir d exe : String)
    (argz : List String) (vars : Vars) (e : String)
    (hdir : (chdir = "" ∧ d = "") ∨ (chdir ≠ "" ∧ resolvePath h chdir = some (.ok d)))
    (hspawn : h.spawn exe argz vars d = .error e) :
    launch h quiet chdir (exe :: argz) vars =
      .exit 1 [] (if quiet then ["Command execution failed: " ++ e ++ "\n"] else []) := by
  rcases hdir with ⟨hc, hd⟩ | ⟨hc, hr⟩
  · subst hc; subst hd
    simp [launch, Result.bind, hspawn]
  · simp [launch, Result.bind, hc, hr, hspawn]

/-- Witness for C8: the executable `missing` on the table host, without and
with `quiet`. -/
theorem launch_failure_diagnostic_when_quiet_witness :
    launch (tableHost [] [] idEngine) false "" ["missing"] [] = .exit 1 [] [] ∧
    launch (tableHost [] [] idEngine) true "" ["missing"] [] =
      .exit 1 [] ["Command execution failed: executable file not found\n"] :=
  ⟨launch_failure_diagnostic_when_quiet (tableHost [] [] idEngine) false "" "" "missing" [] []
      "executable file not found" (Or.inl ⟨rfl, rfl⟩) rfl,
   launch_failure_diagnostic_when_quiet (tableHost [] [] idEngine) true "" "" "missing" [] []
      "executable file not found" (Or.inl ⟨rfl, rfl⟩) rfl⟩

/-! ## Claims on the final mapping -/

/-- C3 (as stated, refuted): with an engine that replaces `$NAME` by the value
of `NAME`, the inline assignment `K=$HOME` ends as `K=/root`, not as the
literal `$HOME`: the loop of lines 262-291 expands inline values too. -/
theorem inline_value_is_not_literal :
    resolve (tableHost [("HOME", "/root")] [] dollarEngine) ["K=$HOME", "cmd"] =
      .ok { quiet := false, chdir := "", commandArgs := ["cmd"],
            vars := [("K", "/root"), ("HOME", "/root")] } ∧
    inlineValue ["K=$HOME"] "K" = some "$HOME" ∧
    mapGet [("K", "/root"), ("HOME", "/root")] "K" ≠ some "$HOME" := by
  decide

/-- C3 (amended): when `NAME=VALUE` is the last inline assignment of `NAME`
and no expansion of another entry sets `NAME`, the document is some entries
`pre`, then the entry `NAME=VALUE`, then entries `post` that do not name
`NAME`; the loop of lines 262-291 reaches the entry with the mapping `m` it has
built from the seed over `pre`, and the final mapping holds `NAME` with the
text the expansion engine returns for `VALUE` in that mapping `m`.  It is
`VALUE` itself when `VALUE` has no `$` and the engine returns such text as it
is. -/
theorem inline_value_goes_through_engine (h : Host) (quiet : Bool) (fl : Flags)
    (envFiles envVars : List String) (NAME VALUE : String) (vars : Vars) (docs : Document)
    (hlast : inlineValue (envVars ++ fl.envVarsValue) NAME = some VALUE)
    (hdocs : buildDocument h quiet fl envFiles envVars = .ok docs)
    (halone : LeavesAlone h NAME docs)
    (hrun : finalVars h quiet fl envFiles envVars = .ok vars) :
    (∃ pre post m s m1, docs = pre ++ var NAME VALUE :: post ∧ lastValue post NAME = none ∧
      assignLoop h quiet (expandOptions fl) pre (seedVars h fl) = .ok m ∧
      h.expand (expandOptions fl) VALUE m = .ok (s, m1) ∧ mapGet vars NAME = some s) ∧
    (PassesPlain h → '$' ∉ VALUE.data → mapGet vars NAME = some VALUE) := by
  have key : ∃ pre post m s m1, docs = pre ++ var NAME VALUE :: post ∧
      lastValue post NAME = none ∧
      assignLoop h quiet (expandOptions fl) pre (seedVars h fl) = .ok m ∧
      h.expand (expandOptions fl) VALUE m = .ok (s, m1) ∧ mapGet vars NAME = some s := by
    obtain ⟨es1, e, es2, hsplit, hcut, hnone⟩ := inlineValue_split _ NAME VALUE hlast
    have hbuild := hdocs
    unfold buildDocument at hbuild
    obtain ⟨docs0, _, hadd⟩ := Result.bind_eq_ok hbuild
    have hshape : docs = (docs0 ++ inlineNodes es1) ++ var NAME VALUE :: inlineNodes es2 := by
      rw [addInline_eq quiet _ _ _ hadd, hsplit, inlineNodes_append]
      simp [inlineNodes, hcut]
    have hpost : lastValue (inlineNodes es2) NAME = none := by
      rw [lastValue_inlineNodes]; exact hnone
    have hloop : assignLoop h quiet (expandOptions fl) docs (seedVars h fl) = .ok vars := by
      unfold finalVars at hrun
      rw [hdocs] at hrun
      exact hrun
    rw [hshape, assignLoop_append] at hloop
    obtain ⟨m, hpre, htail⟩ := Result.bind_eq_ok hloop
    have e1 : assignLoop h quiet (expandOptions fl) (var NAME VALUE :: inlineNodes es2) m =
        (assignNode h quiet (expandOptions fl) (var NAME VALUE) m).bind fun vars1 =>
          assignLoop h quiet (expandOptions fl) (inlineNodes es2) vars1 := rfl
    rw [e1] at htail
    obtain ⟨v1, hnode, hrest⟩ := Result.bind_eq_ok htail
    obtain ⟨name, s, m1, hkey, hexp, hv1⟩ := assignNode_eq_ok hnode
    have hname : name = NAME := (Option.some.inj hkey).symm
    subst hname
    have hpostAlone : LeavesAlone h name (inlineNodes es2) := by
      intro n hn
      apply halone n
      rw [hshape]
      exact List.mem_append_right _ (List.mem_cons_of_mem _ hn)
    have hkeep := (assignLoop_value h quiet (expandOptions fl) name (inlineNodes es2) hpostAlone
      v1 vars hrest).2 hpost
    refine ⟨docs0 ++ inlineNodes es1, inlineNodes es2, m, s, m1, hshape, hpost, hpre, hexp, ?_⟩
    rw [hkeep, hv1, mapGet_mapSet_self]
  refine ⟨key, fun hplain hfree => ?_⟩
  obtain ⟨_, _, m, s, m1, _, _, _, hexp, hget⟩ := key
  rw [hget, hplain _ _ _ _ _ hfree hexp]

/-- Witness for C3 (amended): `K=v1` then `K=$HOME` with the `$NAME` engine and
`HOME=/root`, where the final value is the engine's `/root`. -/
theorem inline_value_goes_through_engine_witness :
    finalVars (tableHost [("HOME", "/root")] [] dollarEngine) false Flags.empty []
      ["K=v1", "K=$HOME"] = .ok [("K", "/root"), ("HOME", "/root")] ∧
    (∃ pre post m s m1, [var "K" "v1", var "K" "$HOME"] = pre ++ var "K" "$HOME" :: post ∧
      lastValue post "K" = none ∧
      assignLoop (tableHost [("HOME", "/root")] [] dollarEngine) false
        (expandOptions Flags.empty) pre
        (seedVars (tableHost [("HOME", "/root")] [] dollarEngine) Flags.empty) = .ok m ∧
      dollarEngine (expandOptions Flags.empty) "$HOME" m = .ok (s, m1) ∧
      mapGet [("K", "/root"), ("HOME", "/root")] "K" = some s) :=
  ⟨by decide,
   (inline_value_goes_through_engine (tableHost [("HOME", "/root")] [] dollarEngine) false
     Flags.empty [] ["K=v1", "K=$HOME"] "K" "$HOME" [("K", "/root"), ("HOME", "/root")]
     [var "K" "v1", var "K" "$HOME"] (by decide) (by decide)
     (fun n hn _ hkey => by
        simp only [List.mem_cons, List.mem_singleton, List.not_mem_nil, or_false] at hn
        rcases hn with hn | hn <;> (subst hn; exact absurd rfl hkey))
     (by decide)).1⟩

/-- C4 (as stated, refuted): `a.env` gives `K=a`, `b.env` gives `K` the empty
value and `J=${K:=d}`; both values of `K` are free of `$` and the engine
returns `$`-free text as it is, yet the expansion of `J` sets `K`, and the
final mapping has `K=d`, not the value of `b.env`. -/
theorem later_file_value_replaced_by_default :
    finalVars
      (tableHost []
        [("/work/a.env", [var "K" "a"]),
         ("/work/b.env", [var "K" "", var "J" "$\x7bK:=d\x7d"])] assignDefaultEngine)
      false Flags.empty ["a.env", "b.env"] [] = .ok [("J", "d"), ("K", "d")] ∧
    lastValue [var "K" "a"] "K" = some "a" ∧
    lastValue [var "K" "", var "J" "$\x7bK:=d\x7d"] "K" = some "" ∧
    mapGet [("J", "d"), ("K", "d")] "K" ≠ some "" ∧
    PassesPlain
      (tableHost []
        [("/work/a.env", [var "K" "a"]),
         ("/work/b.env", [var "K" "", var "J" "$\x7bK:=d\x7d"])] assignDefaultEngine) :=
  ⟨by decide, by decide, by decide, by decide, assignDefaultEngine_passesPlain _ _⟩

/-- C4 (amended): with env files `pa` then `pb` whose documents both define `K`, the
second with the `$`-free value `vb`, an engine that returns `$`-free text as it
is, and no expansion of another entry setting `K`: the final mapping has
`K = vb` when no inline assignment names `K`; with a last inline assignment
`K=Z`, `Z` non-empty and `$`-free, it has `K = Z`. -/
theorem later_definition_wins (h : Host) (quiet : Bool) (fl : Flags)
    (envFiles envVars : List String) (pa pb : String) (A B : Document) (K va vb : String)
    (vars : Vars) (docs : Document)
    (hfiles : envFiles ++ fl.envFilesValue = [pa, pb])
    (hA : loadEnvFile h quiet pa = .ok A) (hB : loadEnvFile h quiet pb = .ok B)
    (_hAK : lastValue A K = some va) (hBK : lastValue B K = some vb)
    (_hva : '$' ∉ va.data) (hvb : '$' ∉ vb.data)
    (hplain : PassesPlain h)
    (hdocs : buildDocument h quiet fl envFiles envVars = .ok docs)
    (halone : LeavesAlone h K docs)
    (hrun : finalVars h quiet fl envFiles envVars = .ok vars) :
    (inlineValue (envVars ++ fl.envVarsValue) K = none → mapGet vars K = some vb) ∧
    (∀ Z, inlineValue (envVars ++ fl.envVarsValue) K = some Z → Z ≠ "" → '$' ∉ Z.data →
      mapGet vars K = some Z) := by
  have hload : loadAll h quiet (envFiles ++ fl.envFilesValue) = .ok [A, B] := by
    rw [hfiles]
    simp [loadAll, hA, hB, Result.bind]
  have hdv : docsValue [A, B] K = some vb := by
    simp [docsValue, hBK, laterOr]
  constructor
  · intro hnone
    refine finalVars_plain h quiet fl envFiles envVars K vb vars _ docs hdocs halone hplain hload
      hrun ?_ hvb
    rw [hnone, hdv]; rfl
  · intro Z hZ _ hfree
    refine finalVars_plain h quiet fl envFiles envVars K Z vars _ docs hdocs halone hplain hload
      hrun ?_ hfree
    rw [hZ]; rfl

/-- Witness for C4 (amended): `a.env` with `K=a`, `b.env` with `K=b`, without and with
the inline assignment `K=z`. -/
theorem later_definition_wins_witness :
    (finalVars (tableHost [] [("/work/a.env", [var "K" "a"]), ("/work/b.env", [var "K" "b"])]
        idEngine) false Flags.empty ["a.env", "b.env"] [] = .ok [("K", "b")] ∧
      mapGet [("K", "b")] "K" = some "b") ∧
    (finalVars (tableHost [] [("/work/a.env", [var "K" "a"]), ("/work/b.env", [var "K" "b"])]
        idEngine) false Flags.empty ["a.env", "b.env"] ["K=z"] = .ok [("K", "z")] ∧
      mapGet [("K", "z")] "K" = some "z") :=
  ⟨⟨by decide,
    (later_definition_wins
      (tableHost [] [("/work/a.env", [var "K" "a"]), ("/work/b.env", [var "K" "b"])] idEngine)
      false Flags.empty ["a.env", "b.env"] [] "a.env" "b.env" [var "K" "a"] [var "K" "b"]
      "K" "a" "b" [("K", "b")] [var "K" "b"] rfl (by decide) (by decide) (by decide)
      (by decide) (by decide) (by decide) (idEngine_passesPlain _ _) (by decide)
      (idEngine_leavesAlone _ _ _ _) (by decide)).1 (by decide)⟩,
   ⟨by decide,
    (later_definition_wins
      (tableHost [] [("/work/a.env", [var "K" "a"]), ("/work/b.env", [var "K" "b"])] idEngine)
      false Flags.empty ["a.env", "b.env"] ["K=z"] "a.env" "b.env" [var "K" "a"] [var "K" "b"]
      "K" "a" "b" [("K", "z")] [var "K" "b", var "K" "z"] rfl (by decide) (by decide)
      (by decide) (by decide) (by decide) (by decide) (idEngine_passesPlain _ _) (by decide)
      (idEngine_leavesAlone _ _ _ _) (by decide)).2 "z" (by decide) (by decide) (by decide)⟩⟩

/-- C5 (as stated, refuted): `-e K=1 K=2 cmd` ends with `K=1`, the value given
through `-e`, although `K=2` comes later on the command line; and with `a.env`
given through `-E` before the positional `b.env`, both defining `K`, the final
value is the one of `a.env`, not the positional file's. -/
theorem flag_sources_override_positional :
    resolve (tableHost [] [] idEngine) ["-e", "K=1", "K=2", "cmd"] =
      .ok { quiet := false, chdir := "", commandArgs := ["cmd"], vars := [("K", "1")] } ∧
    resolve (tableHost [] [("/work/a.env", [var "K" "a"]), ("/work/b.env", [var "K" "b"])]
        idEngine) ["-E", "a.env", "b.env", "cmd"] =
      .ok { quiet := false, chdir := "", commandArgs := ["cmd"], vars := [("K", "a")] } := by
  decide

/-- C5 (amended): within each form the order given is kept, and the sources
given through `-e`/`--env` and `-E`/`--env-file` are merged after the
positional ones of their kind.  With `$`-free values, an engine that returns
such text as it is, and no expansion of another entry setting `K`: the last
`-e` assignment of `K` gives the final value; without one, the last positional
assignment of `K` does; with no inline assignment of `K`, the last `-E` file
naming `K` does, and without one the last positional file naming `K`. -/
theorem flag_sources_merged_after_positional (h : Host) (quiet : Bool) (fl : Flags)
    (envFiles envVars : List String) (K : String) (vars : Vars) (dp df : List Document)
    (docs : Document) (hplain : PassesPlain h)
    (hp : loadAll h quiet envFiles = .ok dp) (hf : loadAll h quiet fl.envFilesValue = .ok df)
    (hdocs : buildDocument h quiet fl envFiles envVars = .ok docs)
    (halone : LeavesAlone h K docs)
    (hrun : finalVars h quiet fl envFiles envVars = .ok vars) :
    (∀ b, inlineValue fl.envVarsValue K = some b → '$' ∉ b.data → mapGet vars K = some b) ∧
    (∀ a, inlineValue fl.envVarsValue K = none → inlineValue envVars K = some a →
      '$' ∉ a.data → mapGet vars K = some a) ∧
    (∀ v, inlineValue fl.envVarsValue K = none → inlineValue envVars K = none →
      docsValue df K = some v → '$' ∉ v.data → mapGet vars K = some v) ∧
    (∀ v, inlineValue fl.envVarsValue K = none → inlineValue envVars K = none →
      docsValue df K = none → docsValue dp K = some v → '$' ∉ v.data →
      mapGet vars K = some v) := by
  have hload := loadAll_append_ok h quiet envFiles fl.envFilesValue dp df hp hf
  have key : ∀ v, laterOr (inlineValue (envVars ++ fl.envVarsValue) K)
      (docsValue (dp ++ df) K) = some v → '$' ∉ v.data → mapGet vars K = some v :=
    fun v hv hfree =>
      finalVars_plain h quiet fl envFiles envVars K v vars _ docs hdocs halone hplain hload hrun
        hv hfree
  refine ⟨fun b hb hfree => key b ?_ hfree, fun a hn ha hfree => key a ?_ hfree,
    fun v hn1 hn2 hv hfree => key v ?_ hfree, fun v hn1 hn2 hn3 hv hfree => key v ?_ hfree⟩
  · rw [inlineValue_append, hb]; rfl
  · rw [inlineValue_append, hn, ha]; rfl
  · rw [inlineValue_append, hn1, hn2, docsValue_append, hv]; rfl
  · rw [inlineValue_append, hn1, hn2, docsValue_append, hn3, hv]; rfl

/-- Witness for C5 (amended): positional `K=2` and `-e K=1`; positional
`b.env` and `-E a.env`. -/
theorem flag_sources_merged_after_positional_witness :
    (finalVars (tableHost [] [] idEngine) false
        { Flags.empty with envVarsValue := ["K=1"] } [] ["K=2"] = .ok [("K", "1")] ∧
      mapGet [("K", "1")] "K" = some "1") ∧
    (finalVars (tableHost [] [("/work/a.env", [var "K" "a"]), ("/work/b.env", [var "K" "b"])]
        idEngine) false { Flags.empty with envFilesValue := ["a.env"] } ["b.env"] [] =
        .ok [("K", "a")] ∧
      mapGet [("K", "a")] "K" = some "a") :=
  ⟨⟨by decide,
    (flag_sources_merged_after_positional (tableHost [] [] idEngine) false
      { Flags.empty with envVarsValue := ["K=1"] } [] ["K=2"] "K" [("K", "1")] [] []
      [var "K" "2", var "K" "1"] (idEngine_passesPlain _ _) (by decide) (by decide) (by decide)
      (idEngine_leavesAlone _ _ _ _) (by decide)).1 "1" (by decide) (by decide)⟩,
   ⟨by decide,
    (flag_sources_merged_after_positional
      (tableHost [] [("/work/a.env", [var "K" "a"]), ("/work/b.env", [var "K" "b"])] idEngine)
      false { Flags.empty with envFilesValue := ["a.env"] } ["b.env"] [] "K" [("K", "a")]
      [[var "K" "b"]] [[var "K" "a"]] [var "K" "a"]
      (idEngine_passesPlain _ _) (by decide) (by decide) (by decide)
      (idEngine_leavesAlone _ _ _ _) (by decide)).2.2.1 "a" (by decide) (by decide) (by decide)
      (by decide)⟩⟩

/-- C6 (as stated, refuted): the process environment has `K=1`, `K` is unset,
and `.env` gives `K` the empty value and `J=${K:=d}`; the value of `K` in the
file is free of `$`, yet the expansion of `J` sets `K`, and the final mapping
has `K=d`, not the value of the file. -/
theorem unset_file_value_replaced_by_default :
    finalVars
      (tableHost [("K", "1")] [("/work/.env", [var "K" "", var "J" "$\x7bK:=d\x7d"])]
        assignDefaultEngine)
      false { Flags.empty with unsetVars := ["K"] } [".env"] [] =
      .ok [("J", "d"), ("K", "d")] ∧
    lastValue [var "K" "", var "J" "$\x7bK:=d\x7d"] "K" = some "" ∧
    mapGet [("J", "d"), ("K", "d")] "K" ≠ some "" ∧
    PassesPlain
      (tableHost [("K", "1")] [("/work/.env", [var "K" "", var "J" "$\x7bK:=d\x7d"])]
        assignDefaultEngine) :=
  ⟨by decide, by decide, by decide, assignDefaultEngine_passesPlain _ _⟩

/-- C6 (amended): when the process environment is not ignored, defines `K`, and `K` is
in the unset list, with an engine that returns `$`-free text as it is and no
expansion of another entry setting `K`: (1) if the last of the env-file and
inline entries for `K` has the `$`-free value `v`, the final mapping has
`K = v`; (2) if no file entry and no inline assignment names `K`, `K` is absent
from the final mapping; and deleting a name that is absent changes nothing. -/
theorem unset_before_merge (h : Host) (quiet : Bool) (fl : Flags)
    (envFiles envVars : List String) (K v0 : String) (vars : Vars) (ds : List Document)
    (docs : Document)
    (_hign : h.ignoreEnv = false) (_henv : mapGet h.environ K = some v0)
    (hunset : K ∈ fl.unsetVars) (hplain : PassesPlain h)
    (hload : loadAll h quiet (envFiles ++ fl.envFilesValue) = .ok ds)
    (hdocs : buildDocument h quiet fl envFiles envVars = .ok docs)
    (halone : LeavesAlone h K docs)
    (hrun : finalVars h quiet fl envFiles envVars = .ok vars) :
    (∀ v, laterOr (inlineValue (envVars ++ fl.envVarsValue) K) (docsValue ds K) = some v →
      '$' ∉ v.data → mapGet vars K = some v) ∧
    (inlineValue (envVars ++ fl.envVarsValue) K = none → docsValue ds K = none →
      mapGet vars K = none) ∧
    (∀ (m : Vars) (name : String), mapGet m name = none → mapDelete m name = m) := by
  refine ⟨fun v hv hfree => ?_, fun hn1 hn2 => ?_, fun m name hm => mapDelete_absent m name hm⟩
  · exact finalVars_plain h quiet fl envFiles envVars K v vars ds docs hdocs halone hplain hload
      hrun hv hfree
  · have hnone : laterOr (inlineValue (envVars ++ fl.envVarsValue) K) (docsValue ds K) = none := by
      rw [hn1, hn2]; rfl
    rw [(finalVars_value h quiet fl envFiles envVars K vars ds docs hdocs halone hload hrun).2
      hnone]
    unfold seedVars
    split
    · exact mapGet_foldl_delete_mem fl.unsetVars K hunset _
    · rfl

/-- Witness for C6 (amended): the process environment has `K=1`, `K` is unset; with the
env file `.env` giving `K=2` the final mapping has `K=2`, and with nothing
naming `K` the name is absent. -/
theorem unset_before_merge_witness :
    (finalVars (tableHost [("K", "1"), ("J", "j")] [("/work/.env", [var "K" "2"])] idEngine)
        false { Flags.empty with unsetVars := ["K"] } [".env"] [] =
        .ok [("K", "2"), ("J", "j")] ∧
      mapGet [("K", "2"), ("J", "j")] "K" = some "2") ∧
    (finalVars (tableHost [("K", "1"), ("J", "j")] [] idEngine)
        false { Flags.empty with unsetVars := ["K"] } [] [] = .ok [("J", "j")] ∧
      mapGet [("J", "j")] "K" = none) :=
  ⟨⟨by decide,
    (unset_before_merge
      (tableHost [("K", "1"), ("J", "j")] [("/work/.env", [var "K" "2"])] idEngine)
      false { Flags.empty with unsetVars := ["K"] } [".env"] [] "K" "1"
      [("K", "2"), ("J", "j")] [[var "K" "2"]] [var "K" "2"] rfl (by decide) (by decide)
      (idEngine_passesPlain _ _) (by decide) (by decide) (idEngine_leavesAlone _ _ _ _)
      (by decide)).1 "2" (by decide) (by decide)⟩,
   ⟨by decide,
    (unset_before_merge (tableHost [("K", "1"), ("J", "j")] [] idEngine)
      false { Flags.empty with unsetVars := ["K"] } [] [] "K" "1"
      [("J", "j")] [] [] rfl (by decide) (by decide)
      (idEngine_passesPlain _ _) (by decide) (by decide) (idEngine_leavesAlone _ _ _ _)
      (by decide)).2.1 (by decide) (by decide)⟩⟩

end Xenv
